import Mathlib

/-!
Verification of the rusty-scheduler repository.

The development shallowly embeds the source files `src/interval.rs`,
`src/scheduler.rs`, `src/executor.rs` and `src/state.rs`.

Conventions of the embedding:
* `chrono::DateTime<Utc>` is modelled by the structure `DateTimeUtc`
  holding the civil fields (proleptic Gregorian calendar, as chrono uses);
  the timeline order used by chrono's `PartialOrd` and by duration
  arithmetic is recovered through `toAbsSeconds`.
* `Vec<u32>` fields are modelled by `List Nat`; the u32 range is enforced
  where the source enforces it (in `parse_u32`, the model of
  `str::parse::<u32>`).
* fallible Rust functions returning `Result<T, Error>` are modelled by
  `Except ErrorKind T` (the `failure`-based `Error` wrapper carries no
  information the program inspects beyond its `ErrorKind`).
* process spawning and the file system are modelled by explicit oracles
  passed as arguments (a `Job → JobOutcome` environment for the executor,
  an `Except ErrorKind State` read result for the state store).
-/

deriving instance DecidableEq for Except

namespace RustyScheduler

/-! ## Calendar groundwork (model of chrono's proleptic Gregorian calendar) -/

/-- Gregorian leap-year rule, as used by chrono. -/
def isLeap (y : Int) : Bool :=
  y % 4 == 0 && (y % 100 != 0 || y % 400 == 0)

/-- Length of a month, parameterised by whether the year is leap. -/
def monthLengthB (leap : Bool) : Nat → Nat
  | 2 => if leap then 29 else 28
  | 4 => 30
  | 6 => 30
  | 9 => 30
  | 11 => 30
  | _ => 31

/-- Length of month `m` (1-12) of year `y`. -/
def monthLength (y : Int) (m : Nat) : Nat :=
  monthLengthB (isLeap y) m

/-- Days in year `y` strictly before month `m` (1-12), parameterised by leapness. -/
def daysBeforeMonthB (leap : Bool) : Nat → Nat
  | 1 => 0
  | 2 => 31
  | 3 => 59 + (if leap then 1 else 0)
  | 4 => 90 + (if leap then 1 else 0)
  | 5 => 120 + (if leap then 1 else 0)
  | 6 => 151 + (if leap then 1 else 0)
  | 7 => 181 + (if leap then 1 else 0)
  | 8 => 212 + (if leap then 1 else 0)
  | 9 => 243 + (if leap then 1 else 0)
  | 10 => 273 + (if leap then 1 else 0)
  | 11 => 304 + (if leap then 1 else 0)
  | 12 => 334 + (if leap then 1 else 0)
  | _ => 0

/-- Days in year `y` strictly before month `m`. -/
def daysBeforeMonth (y : Int) (m : Nat) : Nat :=
  daysBeforeMonthB (isLeap y) m

/-- Days from 0000-01-01 to the first day of year `y` (proleptic Gregorian,
astronomical year numbering, floor division so negative years work too). -/
def daysBeforeYear (y : Int) : Int :=
  365 * y + (y + 3) / 4 - (y + 99) / 100 + (y + 399) / 400

/-- Model of `chrono::DateTime<Utc>`: civil fields at second precision. -/
structure DateTimeUtc where
  year : Int
  month : Nat
  day : Nat
  hour : Nat
  minute : Nat
  second : Nat
deriving DecidableEq

/-- The datetime denotes an actual calendar instant (what chrono's
constructors guarantee for every value the program builds). -/
def ValidDate (t : DateTimeUtc) : Prop :=
  1 ≤ t.month ∧ t.month ≤ 12 ∧ 1 ≤ t.day ∧ t.day ≤ monthLength t.year t.month ∧
    t.hour ≤ 23 ∧ t.minute ≤ 59 ∧ t.second ≤ 59

instance (t : DateTimeUtc) : Decidable (ValidDate t) := by
  unfold ValidDate; infer_instance

/-- Absolute day number (days since 0000-01-01) of the date part. -/
def toAbsDay (t : DateTimeUtc) : Int :=
  daysBeforeYear t.year + daysBeforeMonth t.year t.month + t.day - 1

/-- Absolute position on the timeline in seconds; this is the order chrono
compares datetimes by and the quantity its `Duration` arithmetic acts on. -/
def toAbsSeconds (t : DateTimeUtc) : Int :=
  86400 * toAbsDay t + 3600 * t.hour + 60 * t.minute + t.second

/-- Model of `date.weekday().number_from_monday()` (1 = Monday .. 7 = Sunday).
0000-01-01 (day 0) was a Saturday, hence the offset 5. -/
def weekdayNumber (t : DateTimeUtc) : Nat :=
  ((toAbsDay t + 5) % 7).toNat + 1

/-- Step one calendar day forward (chrono `+ Duration::days(1)` on the date part). -/
def addOneDay (t : DateTimeUtc) : DateTimeUtc :=
  if t.day < monthLength t.year t.month then { t with day := t.day + 1 }
  else if t.month < 12 then { t with month := t.month + 1, day := 1 }
  else { t with year := t.year + 1, month := 1, day := 1 }

/-- Step one calendar day backward. -/
def subOneDay (t : DateTimeUtc) : DateTimeUtc :=
  if 1 < t.day then { t with day := t.day - 1 }
  else if 1 < t.month then { t with month := t.month - 1, day := monthLength t.year (t.month - 1) }
  else { t with year := t.year - 1, month := 12, day := 31 }

/-- Add `n` days. -/
def addDaysNat : DateTimeUtc → Nat → DateTimeUtc
  | t, 0 => t
  | t, n + 1 => addDaysNat (addOneDay t) n

/-- Subtract `n` days. -/
def subDaysNat : DateTimeUtc → Nat → DateTimeUtc
  | t, 0 => t
  | t, n + 1 => subDaysNat (subOneDay t) n

/-- Model of chrono `date + Duration::days(n)` for a signed day count. -/
def addDays (t : DateTimeUtc) (n : Int) : DateTimeUtc :=
  if 0 ≤ n then addDaysNat t n.toNat else subDaysNat t (-n).toNat

/-- Model of chrono `date + Duration::hours(1)`. -/
def addOneHour (t : DateTimeUtc) : DateTimeUtc :=
  if t.hour < 23 then { t with hour := t.hour + 1 }
  else addOneDay { t with hour := 0 }

/-- Model of chrono `date + Duration::minutes(1)`. -/
def addOneMinute (t : DateTimeUtc) : DateTimeUtc :=
  if t.minute < 59 then { t with minute := t.minute + 1 }
  else addOneHour { t with minute := 0 }

/-! ## Error kinds (src/error.rs) -/

/-- The error kinds of `src/error.rs`; the `failure`-based `Error` wrapper is
identified with its kind, which is all the program ever matches on. -/
inductive ErrorKind where
  | InvalidPipelineFolder (path : String)
  | InvalidPipelineFile (path : String)
  | InvalidStateFile (path : String)
  | InvalidIntervalExpression (expr : String)
  | JobStartFailed (breadcrumb : String)
  | JobWaitFailed (breadcrumb : String)
  | JobExecutionFailed (breadcrumb : String) (stderr : String)
  | StageExecutionFailed (stage : String)
  | PipelineExecutionFailed (id : String)
deriving DecidableEq

/-! ## Interval (src/interval.rs): data and parsing -/

/-- The `Interval` struct of src/interval.rs. -/
structure Interval where
  expression : String
  minutes : List Nat
  hours : List Nat
  days : List Nat
  months : List Nat
  weekdays : List Nat
deriving DecidableEq

/-- `Default for Interval`. -/
def Interval.default : Interval :=
  { expression := "", minutes := [], hours := [], days := [], months := [], weekdays := [] }

/-- Whitespace as matched by the validation regex's `\s`, restricted to
ASCII.  The `regex` crate's `\s` (and `str::split_whitespace`) are
Unicode-aware; on ASCII characters both coincide exactly with this set, so
the matcher and splitter below agree with the program precisely on ASCII
expressions, and the universally quantified parsing theorems below restrict
themselves to that domain. -/
def charIsWs (c : Char) : Bool :=
  c = ' ' || c = '\t' || c = '\n' || c = '\r' || c = '\x0b' || c = '\x0c'

/-- Backtracking matcher for the sub-pattern `(\d,?)+` in continuation style:
`matchPlus s k` is true when some prefix of `s` matches `(\d,?)+` and the
continuation `k` accepts the corresponding suffix.  `\d` is modelled as the
ASCII digit test; the `regex` crate's `\d` is Unicode `\p{Nd}`, which agrees
with it on ASCII expressions (the domain of the quantified theorems). -/
def matchPlus : List Char → (List Char → Bool) → Bool
  | [], _ => false
  | c :: ',' :: rest2, k =>
      -- after `\d` with a comma next: consume the comma and continue or stop,
      -- or leave the comma for the continuation (continuing without
      -- consuming it is impossible, since `,` is not a digit)
      if c.isDigit then matchPlus rest2 k || k rest2 || k (',' :: rest2) else false
  | c :: rest, k =>
      if c.isDigit then matchPlus rest k || k rest else false

/-- Matcher for one field pattern `(\*|(\d,?)+)` in continuation style. -/
def matchField (s : List Char) (k : List Char → Bool) : Bool :=
  (match s with
   | '*' :: rest => k rest
   | _ => false) ||
  matchPlus s k

/-- Matcher for a single `\s`. -/
def matchWs (s : List Char) (k : List Char → Bool) : Bool :=
  match s with
  | c :: rest => charIsWs c && k rest
  | [] => false

/-- Matcher for the whole (unanchored-at-the-right) pattern
`(\*|(\d,?)+)\s(\*|(\d,?)+)\s(\*|(\d,?)+)\s(\*|(\d,?)+)\s(\*|(\d,?)+)`
starting at the head of `s`. -/
def matchExpr (s : List Char) : Bool :=
  matchField s (fun r1 => matchWs r1 (fun r2 =>
    matchField r2 (fun r3 => matchWs r3 (fun r4 =>
      matchField r4 (fun r5 => matchWs r5 (fun r6 =>
        matchField r6 (fun r7 => matchWs r7 (fun r8 =>
          matchField r8 (fun _ => true)))))))))

/-- Model of `Regex::is_match` for the validation regex: the pattern is not
anchored, so it matches when it matches starting at any position. -/
def isMatch : List Char → Bool
  | [] => matchExpr []
  | s@(_ :: rest) => matchExpr s || isMatch rest

/-- `Interval::validate_expression` (src/interval.rs lines 87-96). -/
def Interval.validate_expression (expression : String) : Except ErrorKind Unit :=
  if !isMatch expression.data then
    .error (.InvalidIntervalExpression expression)
  else
    .ok ()

/-- Helper for `splitWs`: `acc` holds the current run, reversed. -/
def splitWsAux : List Char → List Char → List (List Char)
  | [], acc => if acc.isEmpty then [] else [acc.reverse]
  | c :: rest, acc =>
    if charIsWs c then
      if acc.isEmpty then splitWsAux rest []
      else acc.reverse :: splitWsAux rest []
    else splitWsAux rest (c :: acc)

/-- Model of `str::split_whitespace`: maximal runs of non-whitespace
characters (empty chunks dropped); exact on ASCII input, where Rust's
Unicode whitespace set coincides with `charIsWs`. -/
def splitWs (s : List Char) : List (List Char) :=
  splitWsAux s []

/-- Model of `str::parse::<u32>`: optional leading `+`, then one or more
digits, with the value bounded by `u32::MAX`. -/
def parse_u32 (s : List Char) : Option Nat :=
  let digits := match s with
    | '+' :: rest => rest
    | _ => s
  if digits.isEmpty then none
  else if digits.all Char.isDigit then
    let v := digits.foldl (fun acc c => acc * 10 + (c.toNat - 48)) 0
    if v < 4294967296 then some v else none
  else none

/-- One section of the expression, as `Interval::new` processes it:
split on `,`, parse each item keeping only the successes, sort ascending
(`Vec::sort` is a stable ascending sort; on a list of numbers any ascending
sort computes the same list). -/
def parseSection (s : List Char) : List Nat :=
  ((s.splitOn ',').filterMap parse_u32).insertionSort (· ≤ ·)

/-- `Interval::validate_interval` (src/interval.rs lines 98-122). -/
def Interval.validate_interval (interval : Interval) : Except ErrorKind Unit :=
  let minute := interval.minutes.find? (fun m => 59 < m)
  let hour := interval.hours.find? (fun h => 23 < h)
  let day := interval.days.find? (fun d => d < 1 || 31 < d)
  let month := interval.months.find? (fun m => m < 1 || 12 < m)
  let weekday := interval.weekdays.find? (fun w => w < 1 || 7 < w)
  if minute.isSome || hour.isSome || day.isSome || month.isSome || weekday.isSome then
    .error (.InvalidIntervalExpression interval.expression)
  else
    .ok ()

/-- `Interval::new` (src/interval.rs lines 59-85).  The five `iter.next()`
sections are read positionally; a regex match guarantees at least five
whitespace-separated sections, so the `unwrap`s never panic and the `getD`
defaults are unreachable. -/
def Interval.new (expression : String) : Except ErrorKind Interval :=
  match Interval.validate_expression expression with
  | .error e => .error e
  | .ok _ =>
    let sections := (splitWs expression.data).map parseSection
    let interval : Interval :=
      { expression := expression
        minutes := sections.getD 0 []
        hours := sections.getD 1 []
        days := sections.getD 2 []
        months := sections.getD 3 []
        weekdays := sections.getD 4 [] }
    match Interval.validate_interval interval with
    | .error e => .error e
    | .ok _ => .ok interval

/-! ## Interval (src/interval.rs): next-time computation -/

/-- `Interval::days_to_weekday` (src/interval.rs lines 256-258). -/
def Interval.days_to_weekday (cur target : Nat) : Int :=
  (((target + 7) - cur) % 7 : Nat)

/-- `Interval::last_day_of_month` (src/interval.rs lines 282-287):
the predecessor of the first day of the following month. -/
def Interval.last_day_of_month (year : Int) (month : Nat) : Nat :=
  if 1 ≤ month + 1 ∧ month + 1 ≤ 12 then
    (subOneDay ⟨year, month + 1, 1, 0, 0, 0⟩).day
  else
    (subOneDay ⟨year + 1, 1, 1, 0, 0, 0⟩).day

/-- `Interval::days_to_safe_date` (src/interval.rs lines 260-280): the signed
whole-day distance from `date` to the requested (clamped) civil date. -/
def Interval.days_to_safe_date (date : DateTimeUtc) (year : Int) (month : Nat)
    (day : Nat) : Int :=
  let p := if month > 12 then (year + 1, month - 12) else (year, month)
  let first_date : DateTimeUtc := { date with year := p.1, month := p.2, day := 1 }
  let last_day := Interval.last_day_of_month p.1 p.2
  let last_date := { first_date with day := last_day }
  -- `with_day(day)` succeeds exactly when `day` is a real day of that month
  let safe_date :=
    if 1 ≤ day ∧ day ≤ monthLength p.1 p.2 then { first_date with day := day }
    else last_date
  (toAbsSeconds safe_date - toAbsSeconds date).tdiv 86400

/-- `Interval::next_minute_or_carry_hour` (src/interval.rs lines 157-170). -/
def Interval.next_minute_or_carry_hour (self : Interval) (date : DateTimeUtc) :
    DateTimeUtc :=
  if self.minutes.isEmpty then date
  else
    let current := date.minute
    let first := self.minutes.headD 0
    match self.minutes.find? (fun minute => current ≤ minute) with
    | some minute => { date with minute := minute }
    | none => addOneHour { date with minute := first }

/-- `Interval::next_hour_or_carry_day` (src/interval.rs lines 172-185). -/
def Interval.next_hour_or_carry_day (self : Interval) (date : DateTimeUtc) :
    DateTimeUtc :=
  if self.hours.isEmpty then date
  else
    let current := date.hour
    let first := self.hours.headD 0
    match self.hours.find? (fun hour => current ≤ hour) with
    | some hour => { date with hour := hour }
    | none => addOneDay { date with hour := first }

/-- `Interval::next_weekday_or_carry_month` (src/interval.rs lines 187-208). -/
def Interval.next_weekday_or_carry_month (self : Interval) (date : DateTimeUtc) :
    DateTimeUtc :=
  if self.weekdays.isEmpty || !self.days.isEmpty then date
  else
    let current := weekdayNumber date
    let first := self.weekdays.headD 0
    match self.weekdays.find? (fun weekday => current ≤ weekday) with
    | some weekday => addDays date (Interval.days_to_weekday current weekday)
    | none => addDays date (Interval.days_to_weekday current first)

/-- `Interval::next_day_or_carry_month` (src/interval.rs lines 210-231). -/
def Interval.next_day_or_carry_month (self : Interval) (date : DateTimeUtc) :
    DateTimeUtc :=
  if self.days.isEmpty || !self.weekdays.isEmpty then date
  else
    let current := date.day
    let first := self.days.headD 0
    match self.days.find? (fun day => current ≤ day) with
    | some day =>
        addDays date (Interval.days_to_safe_date date date.year date.month day)
    | none =>
        addDays date (Interval.days_to_safe_date date date.year (date.month + 1) first)

/-- `Interval::next_month_or_carry_year` (src/interval.rs lines 233-254). -/
def Interval.next_month_or_carry_year (self : Interval) (date : DateTimeUtc) :
    DateTimeUtc :=
  if self.months.isEmpty then date
  else
    let current := date.month
    let first := self.months.headD 0
    match self.months.find? (fun month => current ≤ month) with
    | some month =>
        addDays date (Interval.days_to_safe_date date date.year month date.day)
    | none =>
        addDays date (Interval.days_to_safe_date date (date.year + 1) first date.day)

/-- `Interval::next_time` (src/interval.rs lines 138-155): truncate seconds,
add one minute, then constrain minute, hour, weekday, day and month in turn. -/
def Interval.next_time (self : Interval) (previous : DateTimeUtc) : DateTimeUtc :=
  let next := addOneMinute { previous with second := 0 }
  let next := self.next_minute_or_carry_hour next
  let next := self.next_hour_or_carry_day next
  let next := self.next_weekday_or_carry_month next
  let next := self.next_day_or_carry_month next
  let next := self.next_month_or_carry_year next
  next

/-- `Interval::should_run` (src/interval.rs lines 124-136): due when the next
time is not after `now` (chrono's `<=` is the timeline order). -/
def Interval.should_run (self : Interval) (previous now : DateTimeUtc) : Bool :=
  toAbsSeconds (self.next_time previous) ≤ toAbsSeconds now

/-! ## Pipeline and Job (src/pipeline.rs) -/

/-- The `Job` struct of src/pipeline.rs. -/
structure Job where
  id : String
  breadcrumb : String
  stage : String
  script : String
  path : String
deriving DecidableEq

/-- The `Pipeline` struct of src/pipeline.rs. -/
structure Pipeline where
  id : String
  path : String
  expression : String
  interval : Interval
  stages : List String
  jobs : List Job
deriving DecidableEq

/-! ## State (src/state.rs) -/

/-- The `State` struct of src/state.rs. -/
structure State where
  id : String
  path : String
  active : Bool
  timestamp : DateTimeUtc
deriving DecidableEq

/-- `Utc.timestamp(0, 0)`: the Unix epoch. -/
def epochTimestamp : DateTimeUtc := ⟨1970, 1, 1, 0, 0, 0⟩

/-- The sibling state-file path computed in `State::read_from_pipeline`
(`PathBuf::pop` then `push("state.json")`). -/
def statePathOf (pipelinePath : String) : String :=
  let parts := pipelinePath.splitOn "/"
  if parts.length ≤ 1 then "state.json"
  else String.intercalate "/" parts.dropLast ++ "/state.json"

/-- `State::read_from_pipeline` (src/state.rs lines 27-54).  The file system
read (`State::read_file`) is abstracted as the oracle `readResult`; on any
read or parse failure a fresh inactive state with the epoch timestamp is
synthesized. -/
def State.read_from_pipeline (pipeline : Pipeline)
    (readResult : Except ErrorKind State) : State :=
  match readResult with
  | .ok state => state
  | .error _ =>
    { id := pipeline.id
      path := statePathOf pipeline.path
      active := false
      timestamp := epochTimestamp }

/-! ## Executor (src/executor.rs) -/

/-- The observable outcome of running one job's OS process: the spawn can
fail, waiting for the exit status can fail, or the process exits with a
status that is or is not success. -/
inductive JobOutcome where
  | spawnFail
  | waitFail
  | exited (success : Bool)
deriving DecidableEq

/-- The process environment: which outcome the OS gives each job.  (Captured
standard-error text is not modelled; the program only logs it.) -/
def JobEnv := Job → JobOutcome

/-- `start_job` (src/executor.rs lines 93-103): spawning either yields a
running process for the job or a `JobStartFailed` error. -/
def start_job (env : JobEnv) (job : Job) : Except ErrorKind Job :=
  match env job with
  | .spawnFail => .error (.JobStartFailed job.breadcrumb)
  | _ => .ok job

/-- `wait_job` (src/executor.rs lines 105-122); only ever applied to jobs
whose spawn succeeded. -/
def wait_job (env : JobEnv) (job : Job) : Except ErrorKind Job :=
  match env job with
  | .exited true => .ok job
  | .exited false => .error (.JobExecutionFailed job.breadcrumb "")
  | _ => .error (.JobWaitFailed job.breadcrumb)

/-- `start_jobs` (src/executor.rs lines 56-71). -/
def start_jobs (env : JobEnv) (jobs : List Job) : List (Except ErrorKind Job) :=
  jobs.map (start_job env)

/-- `wait_jobs` (src/executor.rs lines 73-91): wait on the successfully
started processes. -/
def wait_jobs (env : JobEnv) (started : List (Except ErrorKind Job)) :
    List (Except ErrorKind Job) :=
  (started.filterMap Except.toOption).map (wait_job env)

/-- `execute_stage` (src/executor.rs lines 31-54): the stage succeeds exactly
when the number of successfully completed jobs equals the number of jobs
assigned to the stage. -/
def execute_stage (env : JobEnv) (pipeline : Pipeline) (stage : String) :
    Except ErrorKind String :=
  let jobs := pipeline.jobs.filter (fun job => job.stage == stage)
  let jobs_count := jobs.length
  let started := start_jobs env jobs
  let completed := wait_jobs env started
  let successful_count := (completed.filterMap Except.toOption).length
  if successful_count = jobs_count then .ok stage
  else .error (.StageExecutionFailed stage)

/-- The stage loop of `execute` (src/executor.rs lines 10-29) over a list of
remaining stages. -/
def execute_stages (env : JobEnv) (pipeline : Pipeline) :
    List String → Except ErrorKind Unit
  | [] => .ok ()
  | stage :: rest =>
    match execute_stage env pipeline stage with
    | .ok _ => execute_stages env pipeline rest
    | .error _ => .error (.PipelineExecutionFailed pipeline.id)

/-- `execute` (src/executor.rs lines 10-29). -/
def execute (env : JobEnv) (pipeline : Pipeline) : Except ErrorKind Unit :=
  execute_stages env pipeline pipeline.stages

/-- The prefix of the stage list that `execute` actually processes: every
stage before the first failing one, plus the failing stage itself. -/
def processed_stages (env : JobEnv) (pipeline : Pipeline) :
    List String → List String
  | [] => []
  | stage :: rest =>
    match execute_stage env pipeline stage with
    | .ok _ => stage :: processed_stages env pipeline rest
    | .error _ => [stage]

/-- The jobs whose OS process is actually spawned during `execute`: the
spawn-able jobs of the processed stages (a job of a stage that is never
reached, or whose spawn fails, is never running). -/
def started_jobs (env : JobEnv) (pipeline : Pipeline) : List Job :=
  (processed_stages env pipeline pipeline.stages).flatMap
    (fun stage =>
      (pipeline.jobs.filter (fun job => job.stage == stage)).filter
        (fun job => env job ≠ .spawnFail))

/-! ## Scheduler (src/scheduler.rs) -/

/-- `import_state` (src/scheduler.rs lines 70-88), with the state-file read
abstracted by the already-loaded `state` and persistence modelled by the
returned record: `none` means the pipeline is skipped this tick, `some st`
means `st` was persisted with `active = true` and a run starts. -/
def import_state (pipeline : Pipeline) (state : State) (now : DateTimeUtc)
    (ignore_active : Bool) : Option State :=
  if !(pipeline.interval.should_run state.timestamp now) then none
  else if state.active && !ignore_active then none
  else some { state with active := true }

/-- The value of the scheduler loop's `ignore_active` variable on tick `n`
(src/scheduler.rs lines 13 and 34): initialized to `true`, set to `false` at
the end of every iteration. -/
def ignore_active_at : Nat → Bool
  | 0 => true
  | _ + 1 => false

/-- The end of `run_pipeline`'s spawned task (src/scheduler.rs lines 46-67):
given the state acquired by `import_state`, the timestamp captured right
before execution and the execution status, the state that is persisted after
the run. -/
def run_pipeline_finish (state : State) (timestamp : DateTimeUtc)
    (status : Except ErrorKind Unit) : State :=
  match status with
  | .ok _ => { { state with timestamp := timestamp } with active := false }
  | .error _ => { state with active := false }

/-- The whole spawned task of `run_pipeline`: capture `now`, execute, then
finish the state. -/
def run_pipeline_task (env : JobEnv) (pipeline : Pipeline) (state : State)
    (now : DateTimeUtc) : State :=
  run_pipeline_finish state now (execute env pipeline)

/-! ## Derived definitions used by the statements -/

/-- `previous` truncated to the minute (seconds dropped), the baseline the
spec compares `next_time` against. -/
def truncToMinute (t : DateTimeUtc) : DateTimeUtc :=
  { t with second := 0 }

/-- The sequence obtained by repeatedly applying `next_time` starting from
its own result. -/
def next_time_seq (iv : Interval) (t : DateTimeUtc) : Nat → DateTimeUtc
  | 0 => iv.next_time t
  | k + 1 => iv.next_time (next_time_seq iv t k)

/-- Numeric value of a digit string (what `str::parse::<u32>` returns on it). -/
def digitsVal (g : List Char) : Nat :=
  g.foldl (fun acc c => acc * 10 + (c.toNat - 48)) 0

/-- Modelled from the spec (§6 grammar): a numeric field is a comma-separated
non-empty list of non-empty digit strings whose values lie in `[lo, hi]`. -/
def SpecNumField (lo hi : Nat) (f : List Char) : Prop :=
  ∃ groups : List (List Char), groups ≠ [] ∧
    (∀ g ∈ groups, g ≠ [] ∧ (∀ c ∈ g, c.isDigit) ∧ lo ≤ digitsVal g ∧ digitsVal g ≤ hi) ∧
    f = [','].intercalate groups

/-- Modelled from the spec (§6 grammar): a well-formed field is `*` or a
numeric field with in-range values. -/
def SpecField (lo hi : Nat) (f : List Char) : Prop :=
  f = ['*'] ∨ SpecNumField lo hi f

/-! # Theorems -/

/-- C9: `State::read_from_pipeline` is total; on any read or parse failure it
returns a fresh state with the pipeline's id, `active = false` and the Unix
epoch timestamp, and on success it returns the state that was read. -/
theorem c9_state_read_fallback (pipeline : Pipeline) :
    (∀ e : ErrorKind,
      State.read_from_pipeline pipeline (.error e) =
        { id := pipeline.id, path := statePathOf pipeline.path, active := false,
          timestamp := epochTimestamp }) ∧
    (∀ st : State, State.read_from_pipeline pipeline (.ok st) = st) :=
  ⟨fun _ => rfl, fun _ => rfl⟩

/-- C6: after a launched run completes, the persisted state has
`active = false` regardless of the outcome; the timestamp is the instant
captured before execution exactly when execution succeeded and is unchanged
otherwise; the id and path fields are untouched. -/
theorem c6_run_state_finalization (env : JobEnv) (pipeline : Pipeline)
    (state : State) (now : DateTimeUtc) :
    (run_pipeline_task env pipeline state now).active = false ∧
    (run_pipeline_task env pipeline state now).timestamp =
      (match execute env pipeline with
       | .ok _ => now
       | .error _ => state.timestamp) ∧
    (run_pipeline_task env pipeline state now).id = state.id ∧
    (run_pipeline_task env pipeline state now).path = state.path := by
  unfold run_pipeline_task run_pipeline_finish
  cases execute env pipeline <;> simp

/-- C2: for a due pipeline whose persisted state has `active = true`, a new
execution is started on tick `n` exactly when `n = 0` (the first tick after
process start), and on that tick the state is persisted with `active = true`. -/
theorem c2_first_tick_override (pipeline : Pipeline) (state : State)
    (now : DateTimeUtc) (n : Nat)
    (hdue : pipeline.interval.should_run state.timestamp now = true)
    (hactive : state.active = true) :
    ((import_state pipeline state now (ignore_active_at n)).isSome ↔ n = 0) ∧
    import_state pipeline state now (ignore_active_at 0) =
      some { state with active := true } := by
  constructor
  · cases n <;> simp [import_state, ignore_active_at, hdue, hactive]
  · simp [import_state, ignore_active_at, hdue, hactive]

/-- C2 witness: an always-due pipeline with a stale `active = true` state is
started on tick 0 and skipped on tick 3. -/
theorem c2_witness :
    (import_state ⟨"p", "p/pipeline.json", "", Interval.default, [], []⟩
        ⟨"p", "p/state.json", true, epochTimestamp⟩ ⟨1970, 1, 1, 0, 1, 0⟩
        (ignore_active_at 0)).isSome = true ∧
    (import_state ⟨"p", "p/pipeline.json", "", Interval.default, [], []⟩
        ⟨"p", "p/state.json", true, epochTimestamp⟩ ⟨1970, 1, 1, 0, 1, 0⟩
        (ignore_active_at 3)).isSome ≠ true := by
  have h0 := c2_first_tick_override
    ⟨"p", "p/pipeline.json", "", Interval.default, [], []⟩
    ⟨"p", "p/state.json", true, epochTimestamp⟩ ⟨1970, 1, 1, 0, 1, 0⟩ 0
    (by decide) rfl
  have h3 := c2_first_tick_override
    ⟨"p", "p/pipeline.json", "", Interval.default, [], []⟩
    ⟨"p", "p/state.json", true, epochTimestamp⟩ ⟨1970, 1, 1, 0, 1, 0⟩ 3
    (by decide) rfl
  exact ⟨h0.1.mpr rfl, fun h => by simpa using h3.1.mp h⟩

/-- C1 counterexample: for `"0 0 15 * 3"` (non-empty `days = [15]` and
non-empty `weekdays = [3]`) and previous instant 2019-07-01 00:00:00, the
computed next time is 2019-07-02 00:00:00, whose day-of-month 2 is not an
allowed day — so the day-of-month constraint is not applied, contradicting
the claim that `days` takes precedence and is checked unconditionally. -/
theorem c1_counterexample :
    Interval.new "0 0 15 * 3" = .ok ⟨"0 0 15 * 3", [0], [0], [15], [], [3]⟩ ∧
    (⟨"0 0 15 * 3", [0], [0], [15], [], [3]⟩ : Interval).next_time
        ⟨2019, 7, 1, 0, 0, 0⟩ = ⟨2019, 7, 2, 0, 0, 0⟩ ∧
    (2 : Nat) ∉ [(15 : Nat)] := by decide

/-- C1 amended: when both the `days` set and the `weekdays` set are
non-empty, both the weekday pass and the day-of-month pass return the
candidate unchanged — each constraint is skipped because the other set is
non-empty, so neither takes precedence. -/
theorem c1_day_weekday_both_ignored (iv : Interval) (t : DateTimeUtc)
    (hd : iv.days ≠ []) (hw : iv.weekdays ≠ []) :
    iv.next_weekday_or_carry_month t = t ∧ iv.next_day_or_carry_month t = t := by
  constructor
  · unfold Interval.next_weekday_or_carry_month
    simp [List.isEmpty_iff, hd]
  · unfold Interval.next_day_or_carry_month
    simp [List.isEmpty_iff, hw]

/-- C1 witness: both passes leave the candidate unchanged for a concrete
interval with `days = [15]` and `weekdays = [3]`. -/
theorem c1_witness :
    (⟨"", [], [], [15], [], [3]⟩ : Interval).next_weekday_or_carry_month
        ⟨2019, 7, 1, 0, 0, 0⟩ = ⟨2019, 7, 1, 0, 0, 0⟩ ∧
    (⟨"", [], [], [15], [], [3]⟩ : Interval).next_day_or_carry_month
        ⟨2019, 7, 1, 0, 0, 0⟩ = ⟨2019, 7, 1, 0, 0, 0⟩ :=
  c1_day_weekday_both_ignored ⟨"", [], [], [15], [], [3]⟩ ⟨2019, 7, 1, 0, 0, 0⟩
    (by decide) (by decide)

/-- C4 counterexample: `"* * * * * *"` has six fields, yet `Interval::new`
succeeds (the unanchored validation regex matches a five-field substring and
the parser reads the first five sections), contradicting the claim that a
field count different from five yields `InvalidIntervalExpression`; and
`"* * * * 1,2x3"` contains the non-digit token `2x3`, yet succeeds with
`weekdays = [1]` (the regex matches with fifth field `1,2` and the
unparsable comma-item is dropped), contradicting the claim that a field with
a non-digit token yields `InvalidIntervalExpression`. -/
theorem c4_counterexample :
    Interval.new "* * * * * *" = .ok ⟨"* * * * * *", [], [], [], [], []⟩ ∧
    Interval.new "* * * * 1,2x3" =
      .ok ⟨"* * * * 1,2x3", [], [], [], [], [1]⟩ := by
  decide

/-- C8: for the interval parsed from `"0 0 31 * *"` and previous instant
2019-01-30 00:00:00 UTC, iterating `next_time` yields exactly
2019-01-31, 2019-02-28, 2019-03-31, 2019-04-30 (all at 00:00): a requested
day 31 is clamped to each month's last valid day. -/
theorem c8_day_clamp_sequence :
    Interval.new "0 0 31 * *" =
      .ok ⟨"0 0 31 * *", [0], [0], [31], [], []⟩ ∧
    next_time_seq ⟨"0 0 31 * *", [0], [0], [31], [], []⟩ ⟨2019, 1, 30, 0, 0, 0⟩ 0 =
      ⟨2019, 1, 31, 0, 0, 0⟩ ∧
    next_time_seq ⟨"0 0 31 * *", [0], [0], [31], [], []⟩ ⟨2019, 1, 30, 0, 0, 0⟩ 1 =
      ⟨2019, 2, 28, 0, 0, 0⟩ ∧
    next_time_seq ⟨"0 0 31 * *", [0], [0], [31], [], []⟩ ⟨2019, 1, 30, 0, 0, 0⟩ 2 =
      ⟨2019, 3, 31, 0, 0, 0⟩ ∧
    next_time_seq ⟨"0 0 31 * *", [0], [0], [31], [], []⟩ ⟨2019, 1, 30, 0, 0, 0⟩ 3 =
      ⟨2019, 4, 30, 0, 0, 0⟩ := by
  set_option maxRecDepth 40000 in decide

/-- The stages `execute` processes are among the stages it was given. -/
theorem processed_stages_subset (env : JobEnv) (p : Pipeline) :
    ∀ l : List String, ∀ s ∈ processed_stages env p l, s ∈ l := by
  intro l
  induction l with
  | nil => intro s hs; simp [processed_stages] at hs
  | cons a l ih =>
    intro s hs
    unfold processed_stages at hs
    cases hex : execute_stage env p a with
    | ok v =>
      rw [hex] at hs
      rcases List.mem_cons.1 hs with h | h
      · subst h; exact List.mem_cons_self _ _
      · exact List.mem_cons_of_mem a (ih s h)
    | error e =>
      rw [hex] at hs
      simp at hs
      simp [hs]

/-- Every job actually spawned by `execute` belongs to one of the processed
stages. -/
theorem started_jobs_stage_processed (env : JobEnv) (p : Pipeline) :
    ∀ j ∈ started_jobs env p, j.stage ∈ processed_stages env p p.stages := by
  intro j hj
  unfold started_jobs at hj
  rcases List.mem_flatMap.1 hj with ⟨s, hs, hjs⟩
  rcases List.mem_filter.1 hjs with ⟨hjs', _⟩
  rcases List.mem_filter.1 hjs' with ⟨_, hstage⟩
  have : j.stage = s := by simpa using hstage
  rw [this]
  exact hs

/-- A stage with no matching jobs succeeds. -/
theorem execute_stage_no_jobs (env : JobEnv) (p : Pipeline) (s : String)
    (h : p.jobs.filter (fun j => j.stage == s) = []) :
    execute_stage env p s = .ok s := by
  unfold execute_stage
  rw [h]
  rfl

/-- The stage loop succeeds when every listed stage has no matching jobs. -/
theorem execute_stages_all_empty (env : JobEnv) (p : Pipeline) :
    ∀ l : List String, (∀ s ∈ l, p.jobs.filter (fun j => j.stage == s) = []) →
      execute_stages env p l = .ok () := by
  intro l
  induction l with
  | nil => intro _; rfl
  | cons a l ih =>
    intro h
    unfold execute_stages
    rw [execute_stage_no_jobs env p a (h a (List.mem_cons_self a l))]
    exact ih (fun s hs => h s (List.mem_cons_of_mem a hs))

/-- C10: a stage that no job is assigned to succeeds vacuously; a pipeline
all of whose stages have no assigned jobs executes successfully; and a job
whose stage does not appear in the stage list is never spawned. -/
theorem c10_empty_stage_success (env : JobEnv) (p : Pipeline) :
    (∀ s : String, p.jobs.filter (fun j => j.stage == s) = [] →
      execute_stage env p s = .ok s) ∧
    ((∀ s ∈ p.stages, p.jobs.filter (fun j => j.stage == s) = []) →
      execute env p = .ok ()) ∧
    (∀ j ∈ p.jobs, j.stage ∉ p.stages → j ∉ started_jobs env p) := by
  refine ⟨execute_stage_no_jobs env p, fun h => execute_stages_all_empty env p p.stages h, ?_⟩
  intro j _ hns hmem
  exact hns (processed_stages_subset env p p.stages j.stage
    (started_jobs_stage_processed env p j hmem))

/-- C10 witness: a pipeline with one stage and no jobs executes successfully,
and a job assigned to an unlisted stage is never spawned. -/
theorem c10_witness :
    execute (fun _ => .exited true)
      ⟨"p", "", "", Interval.default, ["build"], []⟩ = .ok () ∧
    ⟨"j", "p//j", "other", "j.sh", "p/j.sh"⟩ ∉
      started_jobs (fun _ => .exited true)
        ⟨"p", "", "",
          Interval.default, ["build"],
          [⟨"j", "p//j", "other", "j.sh", "p/j.sh"⟩]⟩ := by
  have h1 := c10_empty_stage_success (fun _ => .exited true)
    ⟨"p", "", "", Interval.default, ["build"], []⟩
  have h2 := c10_empty_stage_success (fun _ => .exited true)
    ⟨"p", "", "", Interval.default, ["build"],
      [⟨"j", "p//j", "other", "j.sh", "p/j.sh"⟩]⟩
  refine ⟨h1.2.1 ?_, h2.2.2 ⟨"j", "p//j", "other", "j.sh", "p/j.sh"⟩ ?_ ?_⟩
  · intro s hs; simp at hs; simp [hs]
  · simp
  · decide

/-- Waiting on the started processes covers exactly the jobs whose spawn
succeeded: one job's failure (to spawn or to run) does not prevent any other
spawned job of the stage from being waited to completion. -/
theorem wait_jobs_cover (env : JobEnv) (jobs : List Job) :
    wait_jobs env (start_jobs env jobs) =
      (jobs.filter (fun j => env j ≠ .spawnFail)).map (wait_job env) := by
  unfold wait_jobs start_jobs
  congr 1
  induction jobs with
  | nil => rfl
  | cons j js ih =>
    simp only [List.map_cons, List.filterMap_cons, List.filter_cons]
    cases hj : env j <;> simp [start_job, Except.toOption, hj, ih]

/-- The successfully completed jobs of a stage run are exactly the jobs the
environment lets exit with status zero. -/
theorem completed_ok_filter (env : JobEnv) (jobs : List Job) :
    (wait_jobs env (start_jobs env jobs)).filterMap Except.toOption =
      jobs.filter (fun j => env j = .exited true) := by
  rw [wait_jobs_cover]
  induction jobs with
  | nil => rfl
  | cons j js ih =>
    simp only [List.filter_cons]
    cases hj : env j with
    | spawnFail => simpa [hj] using ih
    | waitFail => simpa [hj, wait_job, Except.toOption] using ih
    | exited b => cases b <;> simpa [hj, wait_job, Except.toOption] using ih

/-- A stage succeeds exactly when every job assigned to it is spawned
successfully and exits with status zero. -/
theorem execute_stage_ok_iff (env : JobEnv) (p : Pipeline) (s : String) :
    execute_stage env p s = .ok s ↔
      ∀ j ∈ p.jobs.filter (fun j => j.stage == s), env j = .exited true := by
  unfold execute_stage
  simp only [completed_ok_filter]
  constructor
  · intro h
    by_cases hlen :
        ((p.jobs.filter (fun j => j.stage == s)).filter
          (fun j => env j = .exited true)).length =
          (p.jobs.filter (fun j => j.stage == s)).length
    · intro j hj
      have hself := (List.filter_eq_self (p := fun j => decide (env j = .exited true))
        (l := p.jobs.filter (fun j => j.stage == s))).1
        ((List.filter_sublist _).eq_of_length hlen)
      simpa using hself j hj
    · rw [if_neg hlen] at h
      exact absurd h (by simp)
  · intro h
    have : (p.jobs.filter (fun j => j.stage == s)).filter
        (fun j => env j = .exited true) = p.jobs.filter (fun j => j.stage == s) :=
      List.filter_eq_self.2 (fun j hj => by simpa using h j hj)
    rw [this, if_pos rfl]

/-- The stage loop aborts at the first failing stage: everything before it
ran, the failing stage is the last processed one, and the pipeline error is
reported. -/
theorem execute_stages_abort (env : JobEnv) (p : Pipeline) (s : String)
    (e : ErrorKind) (post : List String)
    (hfail : execute_stage env p s = .error e) :
    ∀ pre : List String, (∀ t ∈ pre, execute_stage env p t = .ok t) →
      execute_stages env p (pre ++ s :: post) =
        .error (.PipelineExecutionFailed p.id) ∧
      processed_stages env p (pre ++ s :: post) = pre ++ [s] := by
  intro pre
  induction pre with
  | nil =>
    intro _
    constructor
    · rw [List.nil_append]
      unfold execute_stages
      rw [hfail]
    · rw [List.nil_append]
      unfold processed_stages
      rw [hfail]
      rfl
  | cons a l ih =>
    intro hpre
    have ha := hpre a (List.mem_cons_self a l)
    have hrest := ih (fun t ht => hpre t (List.mem_cons_of_mem a ht))
    constructor
    · rw [List.cons_append]
      unfold execute_stages
      rw [ha]
      exact hrest.1
    · rw [List.cons_append]
      unfold processed_stages
      rw [ha, hrest.2]
      rfl

/-- C5: a stage succeeds exactly when every job assigned to it spawns and
exits with status zero (so a spawn failure counts as a failure); every job
whose spawn succeeded is waited to completion regardless of the other jobs'
failures; and when a stage fails after a prefix of successful stages, the
pipeline reports `PipelineExecutionFailed` and no job of any later stage is
ever spawned. -/
theorem c5_stage_semantics (env : JobEnv) (p : Pipeline) (pre post : List String)
    (s : String) (e : ErrorKind)
    (hstages : p.stages = pre ++ s :: post)
    (hpre : ∀ t ∈ pre, execute_stage env p t = .ok t)
    (hfail : execute_stage env p s = .error e) :
    (∀ t : String, execute_stage env p t = .ok t ↔
      ∀ j ∈ p.jobs.filter (fun j => j.stage == t), env j = .exited true) ∧
    (∀ jobs : List Job, wait_jobs env (start_jobs env jobs) =
      (jobs.filter (fun j => env j ≠ .spawnFail)).map (wait_job env)) ∧
    execute env p = .error (.PipelineExecutionFailed p.id) ∧
    processed_stages env p p.stages = pre ++ [s] ∧
    (∀ j ∈ started_jobs env p, j.stage ∈ pre ++ [s]) := by
  have habort := execute_stages_abort env p s e post hfail pre hpre
  refine ⟨execute_stage_ok_iff env p, wait_jobs_cover env, ?_, ?_, ?_⟩
  · unfold execute
    rw [hstages]
    exact habort.1
  · rw [hstages]
    exact habort.2
  · intro j hj
    have := started_jobs_stage_processed env p j hj
    rw [hstages, habort.2] at this
    exact this

/-- C5 witness: in a pipeline whose `build` stage has one succeeding and one
failing job and whose `deploy` stage has one job, the failing `build` stage
makes the pipeline fail and the `deploy` job is never spawned. -/
theorem c5_witness :
    execute
        (fun j => if j.id = "bad" then .exited false else .exited true)
        ⟨"p", "", "", Interval.default, ["build", "deploy"],
          [⟨"good", "", "build", "", ""⟩, ⟨"bad", "", "build", "", ""⟩,
           ⟨"later", "", "deploy", "", ""⟩]⟩ =
      .error (.PipelineExecutionFailed "p") ∧
    (∀ j ∈ started_jobs
        (fun j => if j.id = "bad" then .exited false else .exited true)
        ⟨"p", "", "", Interval.default, ["build", "deploy"],
          [⟨"good", "", "build", "", ""⟩, ⟨"bad", "", "build", "", ""⟩,
           ⟨"later", "", "deploy", "", ""⟩]⟩, j.stage ∈ ["build"]) := by
  have h := c5_stage_semantics
    (fun j => if j.id = "bad" then .exited false else .exited true)
    ⟨"p", "", "", Interval.default, ["build", "deploy"],
      [⟨"good", "", "build", "", ""⟩, ⟨"bad", "", "build", "", ""⟩,
       ⟨"later", "", "deploy", "", ""⟩]⟩
    [] ["deploy"] "build" (.StageExecutionFailed "build")
    rfl (by simp) (by decide)
  exact ⟨h.2.2.1, h.2.2.2.2⟩

/-- `validate_interval` rejects an interval containing any out-of-range
value, reporting `InvalidIntervalExpression` with the original expression. -/
theorem validate_interval_err (iv : Interval)
    (hbad : (∃ m ∈ iv.minutes, 59 < m) ∨ (∃ h ∈ iv.hours, 23 < h) ∨
      (∃ d ∈ iv.days, d < 1 ∨ 31 < d) ∨ (∃ m ∈ iv.months, m < 1 ∨ 12 < m) ∨
      (∃ w ∈ iv.weekdays, w < 1 ∨ 7 < w)) :
    Interval.validate_interval iv = .error (.InvalidIntervalExpression iv.expression) := by
  simp only [Interval.validate_interval]
  rw [if_pos]
  simp only [Bool.or_eq_true, List.find?_isSome]
  rcases hbad with h | h | h | h | h
  · exact Or.inl (Or.inl (Or.inl (Or.inl (by simpa using h))))
  · exact Or.inl (Or.inl (Or.inl (Or.inr (by simpa using h))))
  · exact Or.inl (Or.inl (Or.inr (by simpa using h)))
  · exact Or.inl (Or.inr (by simpa using h))
  · exact Or.inr (by simpa using h)

/-- `validate_expression` can only fail with `InvalidIntervalExpression`
carrying the original expression. -/
theorem validate_expression_error_shape (e : String) (err : ErrorKind)
    (h : Interval.validate_expression e = .error err) :
    err = .InvalidIntervalExpression e := by
  unfold Interval.validate_expression at h
  split at h
  · injection h with h1
    exact h1.symm
  · exact absurd h (by simp)

/-- C4 amended: for ASCII expressions (the domain on which the embedded
regex and whitespace splitting coincide with Rust's Unicode-aware `\d`, `\s`
and `split_whitespace`), `Interval::new` returns `InvalidIntervalExpression`
for every expression in which the (unanchored) five-field pattern matches
nowhere — in particular for the three-field `"0,45 * *"` — and for every
expression whose first five parsed fields contain an out-of-range value
(minute > 59, hour > 23, day outside 1-31, month outside 1-12, weekday
outside 1-7).  Neither a field count above five nor a non-digit token that
still leaves a five-field match causes an error (the counterexample shows
both). -/
theorem c4_invalid_expressions_rejected :
    (∀ e : String, (∀ c ∈ e.data, c.toNat < 128) → isMatch e.data = false →
      Interval.new e = .error (.InvalidIntervalExpression e)) ∧
    Interval.new "0,45 * *" = .error (.InvalidIntervalExpression "0,45 * *") ∧
    (∀ e : String, (∀ c ∈ e.data, c.toNat < 128) →
      ((∃ m ∈ ((splitWs e.data).map parseSection).getD 0 [], 59 < m) ∨
       (∃ h ∈ ((splitWs e.data).map parseSection).getD 1 [], 23 < h) ∨
       (∃ d ∈ ((splitWs e.data).map parseSection).getD 2 [], d < 1 ∨ 31 < d) ∨
       (∃ m ∈ ((splitWs e.data).map parseSection).getD 3 [], m < 1 ∨ 12 < m) ∨
       (∃ w ∈ ((splitWs e.data).map parseSection).getD 4 [], w < 1 ∨ 7 < w)) →
      Interval.new e = .error (.InvalidIntervalExpression e)) := by
  refine ⟨?_, by decide, ?_⟩
  · intro e _ h
    simp [Interval.new, Interval.validate_expression, h]
  · intro e _ h
    simp only [Interval.new]
    cases hv : Interval.validate_expression e with
    | error err =>
      rw [validate_expression_error_shape e err hv]
    | ok u =>
      have hvi := validate_interval_err
        { expression := e
          minutes := ((splitWs e.data).map parseSection).getD 0 []
          hours := ((splitWs e.data).map parseSection).getD 1 []
          days := ((splitWs e.data).map parseSection).getD 2 []
          months := ((splitWs e.data).map parseSection).getD 3 []
          weekdays := ((splitWs e.data).map parseSection).getD 4 [] } h
      rw [hvi]

/-- C4 witness: the ASCII expression with the out-of-range minute 60 is
rejected. -/
theorem c4_witness :
    Interval.new "60 * * * *" = .error (.InvalidIntervalExpression "60 * * * *") :=
  c4_invalid_expressions_rejected.2.2 "60 * * * *" (by decide) (by decide)

/-- Digits are not whitespace. -/
theorem digit_not_ws (c : Char) (h : c.isDigit = true) : charIsWs c = false := by
  by_contra hws
  rw [Bool.not_eq_false] at hws
  simp only [charIsWs, Bool.or_eq_true, decide_eq_true_eq] at hws
  rcases hws with ((((h1 | h1) | h1) | h1) | h1) | h1 <;> subst h1 <;>
    exact absurd h (by decide)

/-- Digits are not the comma. -/
theorem digit_ne_comma (c : Char) (h : c.isDigit = true) : c ≠ ',' := by
  intro h1; subst h1; exact absurd h (by decide)

/-- A non-empty digit string followed by anything the continuation accepts is
accepted by the `(\d,?)+` matcher. -/
theorem matchPlus_digits (g : List Char) (hne : g ≠ [])
    (hdig : ∀ c ∈ g, c.isDigit = true) :
    ∀ (rest : List Char) (k : List Char → Bool), k rest = true →
      matchPlus (g ++ rest) k = true := by
  induction g with
  | nil => exact absurd rfl hne
  | cons c g' ih =>
    intro rest k hk
    have hc : c.isDigit = true := hdig c (List.mem_cons_self _ _)
    cases g' with
    | nil =>
      rcases rest with _ | ⟨c2, rest'⟩
      · rw [List.singleton_append, matchPlus.eq_def]
        split <;> simp_all
      · by_cases hc2 : c2 = ','
        · subst hc2
          rw [List.singleton_append, matchPlus.eq_def]
          split <;> simp_all
        · rw [List.singleton_append, matchPlus.eq_def]
          split <;> simp_all
    | cons d g'' =>
      have hd : d.isDigit = true :=
        hdig d (List.mem_cons_of_mem _ (List.mem_cons_self _ _))
      have hdc : d ≠ ',' := digit_ne_comma d hd
      have hih := ih (by simp) (fun x hx => hdig x (List.mem_cons_of_mem _ hx)) rest k hk
      rw [List.cons_append, matchPlus.eq_def]
      split <;> simp_all

/-- A non-empty digit string, a comma, and a tail the matcher accepts is
accepted by the `(\d,?)+` matcher. -/
theorem matchPlus_digits_comma (g : List Char) (hne : g ≠ [])
    (hdig : ∀ c ∈ g, c.isDigit = true) :
    ∀ (tail : List Char) (k : List Char → Bool), matchPlus tail k = true →
      matchPlus (g ++ ',' :: tail) k = true := by
  induction g with
  | nil => exact absurd rfl hne
  | cons c g' ih =>
    intro tail k htail
    have hc : c.isDigit = true := hdig c (List.mem_cons_self _ _)
    cases g' with
    | nil =>
      rw [List.singleton_append, matchPlus.eq_def]
      split <;> simp_all
      rename_i hno heq
      exact absurd heq.2.symm (hno tail)
    | cons d g'' =>
      have hd : d.isDigit = true :=
        hdig d (List.mem_cons_of_mem _ (List.mem_cons_self _ _))
      have hdc : d ≠ ',' := digit_ne_comma d hd
      have hih := ih (by simp) (fun x hx => hdig x (List.mem_cons_of_mem _ hx)) tail k htail
      rw [List.cons_append, matchPlus.eq_def]
      split <;> simp_all

/-- `intercalate` on a single chunk. -/
theorem intercalate_comma_singleton (g : List Char) :
    [','].intercalate [g] = g := by
  simp [List.intercalate]

/-- `intercalate` peels off the first chunk and one separator. -/
theorem intercalate_comma_cons (g : List Char) (gs : List (List Char))
    (h : gs ≠ []) :
    [','].intercalate (g :: gs) = g ++ ',' :: [','].intercalate gs := by
  rcases gs with _ | ⟨g2, gs'⟩
  · exact absurd rfl h
  · simp [List.intercalate]

/-- A whole comma-separated list of non-empty digit strings is accepted by
the `(\d,?)+` matcher. -/
theorem matchPlus_groups (groups : List (List Char)) (hne : groups ≠ [])
    (hgs : ∀ g ∈ groups, g ≠ [] ∧ ∀ c ∈ g, c.isDigit = true) :
    ∀ (rest : List Char) (k : List Char → Bool), k rest = true →
      matchPlus ([','].intercalate groups ++ rest) k = true := by
  induction groups with
  | nil => exact absurd rfl hne
  | cons g gs ih =>
    intro rest k hk
    have hg := hgs g (List.mem_cons_self _ _)
    cases gs with
    | nil =>
      rw [intercalate_comma_singleton]
      exact matchPlus_digits g hg.1 hg.2 rest k hk
    | cons g2 gs' =>
      rw [intercalate_comma_cons g _ (by simp), List.append_assoc, List.cons_append]
      exact matchPlus_digits_comma g hg.1 hg.2 _ k
        (ih (by simp) (fun x hx => hgs x (List.mem_cons_of_mem _ hx)) rest k hk)

/-- A well-formed field followed by anything the continuation accepts is
accepted by the field matcher. -/
theorem matchField_spec (lo hi : Nat) (f : List Char) (hf : SpecField lo hi f) :
    ∀ (rest : List Char) (k : List Char → Bool), k rest = true →
      matchField (f ++ rest) k = true := by
  intro rest k hk
  rcases hf with hstar | ⟨groups, hne, hgs, hform⟩
  · subst hstar
    simp [matchField, hk]
  · subst hform
    unfold matchField
    rw [Bool.or_eq_true]
    exact Or.inr (matchPlus_groups groups hne
      (fun g hg => ⟨(hgs g hg).1, (hgs g hg).2.1⟩) rest k hk)

/-- A single space satisfies the `\s` matcher. -/
theorem matchWs_space (rest : List Char) (k : List Char → Bool)
    (hk : k rest = true) : matchWs (' ' :: rest) k = true := by
  simp [matchWs, charIsWs, hk]

/-- Five well-formed fields joined by single spaces match the whole
validation pattern at position zero. -/
theorem matchExpr_spec (f1 f2 f3 f4 f5 : List Char)
    (lo1 hi1 lo2 hi2 lo3 hi3 lo4 hi4 lo5 hi5 : Nat)
    (h1 : SpecField lo1 hi1 f1) (h2 : SpecField lo2 hi2 f2)
    (h3 : SpecField lo3 hi3 f3) (h4 : SpecField lo4 hi4 f4)
    (h5 : SpecField lo5 hi5 f5) :
    matchExpr (f1 ++ ' ' :: (f2 ++ ' ' :: (f3 ++ ' ' :: (f4 ++ ' ' :: f5)))) =
      true := by
  unfold matchExpr
  apply matchField_spec _ _ f1 h1
  apply matchWs_space
  apply matchField_spec _ _ f2 h2
  apply matchWs_space
  apply matchField_spec _ _ f3 h3
  apply matchWs_space
  apply matchField_spec _ _ f4 h4
  apply matchWs_space
  have := matchField_spec _ _ f5 h5 [] (fun _ => true) rfl
  simpa using this

/-- An expression whose head position matches is matched. -/
theorem isMatch_of_matchExpr (s : List Char) (h : matchExpr s = true) :
    isMatch s = true := by
  cases s with
  | nil => simpa [isMatch] using h
  | cons c rest => simp [isMatch, h]

/-- Pushing a run of non-whitespace characters into the `splitWs`
accumulator. -/
theorem splitWsAux_run (f : List Char) (hf : ∀ c ∈ f, charIsWs c = false) :
    ∀ (s acc : List Char), splitWsAux (f ++ s) acc = splitWsAux s (f.reverse ++ acc) := by
  induction f with
  | nil => intro s acc; simp
  | cons c f' ih =>
    intro s acc
    have hc : charIsWs c = false := hf c (List.mem_cons_self _ _)
    have step : splitWsAux ((c :: f') ++ s) acc = splitWsAux (f' ++ s) (c :: acc) := by
      rw [List.cons_append, splitWsAux.eq_def]
      simp [hc]
    rw [step, ih (fun x hx => hf x (List.mem_cons_of_mem _ hx)) s (c :: acc)]
    simp

/-- `splitWs` splits off a leading run followed by a space. -/
theorem splitWs_run_space (f rest : List Char) (hne : f ≠ [])
    (hf : ∀ c ∈ f, charIsWs c = false) :
    splitWs (f ++ ' ' :: rest) = f :: splitWs rest := by
  unfold splitWs
  rw [splitWsAux_run f hf (' ' :: rest) [], splitWsAux.eq_def]
  simp [show charIsWs ' ' = true from by decide, List.isEmpty_iff, hne]

/-- `splitWs` of a single non-empty run. -/
theorem splitWs_run_only (f : List Char) (hne : f ≠ [])
    (hf : ∀ c ∈ f, charIsWs c = false) :
    splitWs f = [f] := by
  unfold splitWs
  have h := splitWsAux_run f hf [] []
  rw [List.append_nil] at h
  rw [h, splitWsAux.eq_def]
  simp [List.isEmpty_iff, hne]

/-- `str::parse::<u32>` succeeds on a non-empty all-digit string with an
in-range value and returns its numeric value. -/
theorem parse_u32_digits (g : List Char) (hne : g ≠ [])
    (hdig : ∀ c ∈ g, c.isDigit = true) (hlt : digitsVal g < 4294967296) :
    parse_u32 g = some (digitsVal g) := by
  rcases g with _ | ⟨c, g'⟩
  · exact absurd rfl hne
  have hc : c ≠ '+' := by
    intro h
    have hcd := hdig c (List.mem_cons_self _ _)
    rw [h] at hcd
    exact absurd hcd (by decide)
  unfold parse_u32
  split
  · next heq => injection heq with hc' _; exact absurd hc' hc
  · have hdig' : ∀ x ∈ g', x.isDigit = true :=
      fun x hx => hdig x (List.mem_cons_of_mem _ hx)
    have hlt' : List.foldl (fun acc c => acc * 10 + (c.toNat - 48))
        (c.toNat - 48) g' < 4294967296 := by
      simpa [digitsVal] using hlt
    simp [List.all_eq_true, hdig, digitsVal, hdig', hlt']
    exact hdig'

/-- Any parsed section is sorted ascending. -/
theorem parseSection_sorted (s : List Char) :
    (parseSection s).Sorted (· ≤ ·) :=
  List.sorted_insertionSort _ _

/-- The `*` section parses to the empty (wildcard) list. -/
theorem parseSection_star : parseSection ['*'] = [] := by decide

/-- Characters of an intercalated comma list are commas or group members. -/
theorem mem_intercalate_comma (groups : List (List Char)) :
    ∀ c ∈ [','].intercalate groups, c = ',' ∨ ∃ g ∈ groups, c ∈ g := by
  induction groups with
  | nil => intro c hc; simp [List.intercalate] at hc
  | cons g gs ih =>
    intro c hc
    cases gs with
    | nil =>
      rw [intercalate_comma_singleton] at hc
      exact Or.inr ⟨g, by simp, hc⟩
    | cons g2 gs' =>
      rw [intercalate_comma_cons _ _ (by simp)] at hc
      rcases List.mem_append.1 hc with h | h
      · exact Or.inr ⟨g, by simp, h⟩
      · rcases List.mem_cons.1 h with h' | h'
        · exact Or.inl h'
        · rcases ih c h' with h'' | ⟨g', hg', hcg'⟩
          · exact Or.inl h''
          · exact Or.inr ⟨g', List.mem_cons_of_mem _ hg', hcg'⟩

/-- A well-formed field is non-empty. -/
theorem specField_ne_nil (lo hi : Nat) (f : List Char) (hf : SpecField lo hi f) :
    f ≠ [] := by
  rcases hf with hstar | ⟨groups, hne, hgs, hform⟩
  · subst hstar; simp
  · subst hform
    rcases groups with _ | ⟨g, gs⟩
    · exact absurd rfl hne
    · cases gs with
      | nil =>
        rw [intercalate_comma_singleton]
        exact (hgs g (List.mem_cons_self _ _)).1
      | cons g2 gs' =>
        rw [intercalate_comma_cons _ _ (by simp)]
        simp

/-- A well-formed field contains no whitespace. -/
theorem specField_no_ws (lo hi : Nat) (f : List Char) (hf : SpecField lo hi f) :
    ∀ c ∈ f, charIsWs c = false := by
  intro c hc
  rcases hf with hstar | ⟨groups, hne, hgs, hform⟩
  · subst hstar
    rcases List.mem_singleton.1 hc with rfl
    decide
  · subst hform
    rcases mem_intercalate_comma groups c hc with h | ⟨g, hg, hcg⟩
    · subst h; decide
    · exact digit_not_ws c ((hgs g hg).2.1 c hcg)

/-- Values of a well-formed field's parsed section stay within its range. -/
theorem parseSection_bounds (lo hi : Nat) (f : List Char) (hf : SpecField lo hi f)
    (hhi : hi < 4294967296) :
    ∀ v ∈ parseSection f, lo ≤ v ∧ v ≤ hi := by
  intro v hv
  rcases hf with hstar | ⟨groups, hne, hgs, hform⟩
  · subst hstar
    rw [parseSection_star] at hv
    simp at hv
  · subst hform
    unfold parseSection at hv
    rw [List.mem_insertionSort] at hv
    rw [List.splitOn_intercalate groups ','
      (fun l hl hcomma => absurd ((hgs l hl).2.1 ',' hcomma) (by decide)) hne] at hv
    rcases List.mem_filterMap.1 hv with ⟨g, hg, hparse⟩
    have hprops := hgs g hg
    rw [parse_u32_digits g hprops.1 hprops.2.1
      (lt_of_le_of_lt hprops.2.2.2 hhi)] at hparse
    injection hparse with h1
    exact h1 ▸ ⟨hprops.2.2.1, hprops.2.2.2⟩

/-- `validate_interval` accepts an interval whose values are all in range. -/
theorem validate_interval_ok (iv : Interval)
    (hm : ∀ m ∈ iv.minutes, m ≤ 59) (hh : ∀ h ∈ iv.hours, h ≤ 23)
    (hd : ∀ d ∈ iv.days, 1 ≤ d ∧ d ≤ 31)
    (hmo : ∀ m ∈ iv.months, 1 ≤ m ∧ m ≤ 12)
    (hw : ∀ w ∈ iv.weekdays, 1 ≤ w ∧ w ≤ 7) :
    Interval.validate_interval iv = .ok () := by
  have h1 : iv.minutes.find? (fun m => 59 < m) = none :=
    List.find?_eq_none.2 (fun x hx => by have := hm x hx; simp; omega)
  have h2 : iv.hours.find? (fun h => 23 < h) = none :=
    List.find?_eq_none.2 (fun x hx => by have := hh x hx; simp; omega)
  have h3 : iv.days.find? (fun d => d < 1 || 31 < d) = none :=
    List.find?_eq_none.2 (fun x hx => by have := hd x hx; simp; omega)
  have h4 : iv.months.find? (fun m => m < 1 || 12 < m) = none :=
    List.find?_eq_none.2 (fun x hx => by have := hmo x hx; simp; omega)
  have h5 : iv.weekdays.find? (fun w => w < 1 || 7 < w) = none :=
    List.find?_eq_none.2 (fun x hx => by have := hw x hx; simp; omega)
  simp only [Interval.validate_interval, h1, h2, h3, h4, h5]
  rfl

/-- C7: every well-formed five-field expression (each field `*` or a
comma-separated list of digit strings with in-range values, fields joined by
single spaces) is accepted by `Interval::new`; the resulting field lists are
the parsed sections, each sorted ascending, and a `*` field yields the empty
list. -/
theorem c7_well_formed_parse (f1 f2 f3 f4 f5 : List Char)
    (h1 : SpecField 0 59 f1) (h2 : SpecField 0 23 f2) (h3 : SpecField 1 31 f3)
    (h4 : SpecField 1 12 f4) (h5 : SpecField 1 7 f5) :
    Interval.new
        (String.mk (f1 ++ ' ' :: (f2 ++ ' ' :: (f3 ++ ' ' :: (f4 ++ ' ' :: f5))))) =
      .ok
        { expression :=
            String.mk (f1 ++ ' ' :: (f2 ++ ' ' :: (f3 ++ ' ' :: (f4 ++ ' ' :: f5))))
          minutes := parseSection f1
          hours := parseSection f2
          days := parseSection f3
          months := parseSection f4
          weekdays := parseSection f5 } ∧
    (parseSection f1).Sorted (· ≤ ·) ∧ (parseSection f2).Sorted (· ≤ ·) ∧
    (parseSection f3).Sorted (· ≤ ·) ∧ (parseSection f4).Sorted (· ≤ ·) ∧
    (parseSection f5).Sorted (· ≤ ·) ∧
    (f1 = ['*'] → parseSection f1 = []) ∧ (f2 = ['*'] → parseSection f2 = []) ∧
    (f3 = ['*'] → parseSection f3 = []) ∧ (f4 = ['*'] → parseSection f4 = []) ∧
    (f5 = ['*'] → parseSection f5 = []) := by
  have hmatch : isMatch
      (f1 ++ ' ' :: (f2 ++ ' ' :: (f3 ++ ' ' :: (f4 ++ ' ' :: f5)))) = true :=
    isMatch_of_matchExpr _
      (matchExpr_spec f1 f2 f3 f4 f5 0 59 0 23 1 31 1 12 1 7 h1 h2 h3 h4 h5)
  have hsections : splitWs
      (f1 ++ ' ' :: (f2 ++ ' ' :: (f3 ++ ' ' :: (f4 ++ ' ' :: f5)))) =
      [f1, f2, f3, f4, f5] := by
    rw [splitWs_run_space f1 _ (specField_ne_nil _ _ _ h1) (specField_no_ws _ _ _ h1),
      splitWs_run_space f2 _ (specField_ne_nil _ _ _ h2) (specField_no_ws _ _ _ h2),
      splitWs_run_space f3 _ (specField_ne_nil _ _ _ h3) (specField_no_ws _ _ _ h3),
      splitWs_run_space f4 _ (specField_ne_nil _ _ _ h4) (specField_no_ws _ _ _ h4),
      splitWs_run_only f5 (specField_ne_nil _ _ _ h5) (specField_no_ws _ _ _ h5)]
  have hve : Interval.validate_expression
      (String.mk (f1 ++ ' ' :: (f2 ++ ' ' :: (f3 ++ ' ' :: (f4 ++ ' ' :: f5))))) =
      .ok () := by
    simp [Interval.validate_expression, hmatch]
  have hvi := validate_interval_ok
    { expression :=
        String.mk (f1 ++ ' ' :: (f2 ++ ' ' :: (f3 ++ ' ' :: (f4 ++ ' ' :: f5))))
      minutes := parseSection f1
      hours := parseSection f2
      days := parseSection f3
      months := parseSection f4
      weekdays := parseSection f5 }
    (fun m hm => (parseSection_bounds 0 59 f1 h1 (by omega) m hm).2)
    (fun h hh => (parseSection_bounds 0 23 f2 h2 (by omega) h hh).2)
    (fun d hd => parseSection_bounds 1 31 f3 h3 (by omega) d hd)
    (fun m hm => parseSection_bounds 1 12 f4 h4 (by omega) m hm)
    (fun w hw => parseSection_bounds 1 7 f5 h5 (by omega) w hw)
  refine ⟨?_, parseSection_sorted f1, parseSection_sorted f2, parseSection_sorted f3,
    parseSection_sorted f4, parseSection_sorted f5,
    fun h => h ▸ parseSection_star, fun h => h ▸ parseSection_star,
    fun h => h ▸ parseSection_star, fun h => h ▸ parseSection_star,
    fun h => h ▸ parseSection_star⟩
  unfold Interval.new
  rw [hve]
  have hdata : (String.mk
      (f1 ++ ' ' :: (f2 ++ ' ' :: (f3 ++ ' ' :: (f4 ++ ' ' :: f5))))).data =
      f1 ++ ' ' :: (f2 ++ ' ' :: (f3 ++ ' ' :: (f4 ++ ' ' :: f5))) := rfl
  simp only [hdata, hsections, List.map_cons, List.getD_cons_zero,
    List.getD_cons_succ]
  rw [hvi]

/-- C7 witness: the expression from the source's own parsing test. -/
theorem c7_witness :
    Interval.new "0,45,30,15 10,20 * * *" =
      .ok ⟨"0,45,30,15 10,20 * * *", [0, 15, 30, 45], [10, 20], [], [], []⟩ ∧
    ([0, 15, 30, 45] : List Nat).Sorted (· ≤ ·) := by
  have h := c7_well_formed_parse
    ['0', ',', '4', '5', ',', '3', '0', ',', '1', '5'] ['1', '0', ',', '2', '0']
    ['*'] ['*'] ['*']
    (Or.inr ⟨[['0'], ['4', '5'], ['3', '0'], ['1', '5']], by simp, by decide, by decide⟩)
    (Or.inr ⟨[['1', '0'], ['2', '0']], by simp, by decide, by decide⟩)
    (Or.inl rfl) (Or.inl rfl) (Or.inl rfl)
  refine ⟨?_, ?_⟩
  · have := h.1
    revert this
    decide
  · have := h.2.1
    revert this
    decide

/-! ## Calendar arithmetic lemmas for the next-time analysis -/

/-- Every month has between 28 and 31 days. -/
theorem monthLengthB_bounds (leap : Bool) (m : Nat) :
    28 ≤ monthLengthB leap m ∧ monthLengthB leap m ≤ 31 := by
  unfold monthLengthB
  split <;> first | (split <;> omega) | omega

/-- Cumulative month offsets step by the month length (months 1-11). -/
theorem daysBeforeMonthB_succ :
    ∀ leap : Bool, ∀ m, m < 12 → 1 ≤ m →
      daysBeforeMonthB leap (m + 1) = daysBeforeMonthB leap m + monthLengthB leap m := by
  decide

/-- Cumulative month offsets are monotone on 1-12. -/
theorem daysBeforeMonthB_mono :
    ∀ leap : Bool, ∀ a, a < 13 → ∀ b, b < 13 → a ≤ b →
      daysBeforeMonthB leap a ≤ daysBeforeMonthB leap b := by
  decide

/-- A day position inside a year is at most the year's length. -/
theorem daysBeforeMonthB_day_le :
    ∀ leap : Bool, ∀ m, m < 13 → ∀ d, d < 32 → 1 ≤ m → d ≤ monthLengthB leap m →
      daysBeforeMonthB leap m + d ≤ 365 + (if leap then 1 else 0) := by
  decide

/-- December starts at offset 334 plus the leap day. -/
theorem daysBeforeMonthB_twelve (leap : Bool) :
    daysBeforeMonthB leap 12 = 334 + (if leap then 1 else 0) := by
  cases leap <;> rfl

/-- The year-start day count steps by 365 or 366 according to leapness. -/
theorem daysBeforeYear_succ (y : Int) :
    daysBeforeYear (y + 1) = daysBeforeYear y + 365 + (if isLeap y then 1 else 0) := by
  by_cases h : isLeap y = true
  · rw [if_pos h]
    unfold isLeap at h
    simp only [Bool.and_eq_true, beq_iff_eq, Bool.or_eq_true, bne_iff_ne] at h
    unfold daysBeforeYear
    omega
  · rw [if_neg h]
    unfold isLeap at h
    simp only [Bool.and_eq_true, beq_iff_eq, Bool.or_eq_true, bne_iff_ne] at h
    push_neg at h
    unfold daysBeforeYear
    omega

/-- Stepping one day forward advances the absolute day by one, keeps the
date valid and leaves the time of day untouched. -/
theorem addOneDay_spec (t : DateTimeUtc) (h : ValidDate t) :
    toAbsDay (addOneDay t) = toAbsDay t + 1 ∧ ValidDate (addOneDay t) ∧
      (addOneDay t).hour = t.hour ∧ (addOneDay t).minute = t.minute ∧
      (addOneDay t).second = t.second := by
  obtain ⟨hm1, hm2, hd1, hd2, hh, hmin, hs⟩ := h
  unfold addOneDay
  by_cases hlt : t.day < monthLength t.year t.month
  · rw [if_pos hlt]
    refine ⟨?_, ⟨hm1, hm2, by simp, by simp; omega, hh, hmin, hs⟩,
      rfl, rfl, rfl⟩
    simp [toAbsDay]
    omega
  · rw [if_neg hlt]
    have hde : t.day = monthLength t.year t.month := by omega
    unfold monthLength at hde
    by_cases hm12 : t.month < 12
    · rw [if_pos hm12]
      have hstep := daysBeforeMonthB_succ (isLeap t.year) t.month (by omega) hm1
      have hml1 := (monthLengthB_bounds (isLeap t.year) (t.month + 1)).1
      refine ⟨?_, ⟨by simp, by simp; omega, by simp, ?_, hh, hmin, hs⟩,
        rfl, rfl, rfl⟩
      · simp [toAbsDay, daysBeforeMonth]
        omega
      · simp [monthLength]
        omega
    · rw [if_neg hm12]
      have hm12' : t.month = 12 := by omega
      have h12 := daysBeforeMonthB_twelve (isLeap t.year)
      have hysucc := daysBeforeYear_succ t.year
      have hml12 : monthLengthB (isLeap t.year) 12 = 31 := by
        cases hIL : isLeap t.year <;> rfl
      refine ⟨?_, ⟨by simp, by simp, by simp, ?_, hh, hmin, hs⟩, rfl, rfl, rfl⟩
      · simp [toAbsDay, daysBeforeMonth]
        rw [hm12'] at hde ⊢
        rw [hml12] at hde
        have h1 : daysBeforeMonthB (isLeap (t.year + 1)) 1 = 0 := rfl
        cases hIL : isLeap t.year <;> rw [hIL] at h12 hysucc <;> simp at h12 hysucc <;>
          omega
      · simp [monthLength, monthLengthB]

/-- Adding `n` days advances the absolute position by `n` days, keeps the
date valid and leaves the time of day untouched. -/
theorem addDaysNat_spec (n : Nat) :
    ∀ t : DateTimeUtc, ValidDate t →
      toAbsSeconds (addDaysNat t n) = toAbsSeconds t + 86400 * n ∧
      ValidDate (addDaysNat t n) ∧ (addDaysNat t n).second = t.second := by
  induction n with
  | zero => intro t ht; simp [addDaysNat, ht]
  | succ n ih =>
    intro t ht
    obtain ⟨hday, hvalid, hhour, hmin, hsec⟩ := addOneDay_spec t ht
    obtain ⟨ihs, ihv, ihsec⟩ := ih (addOneDay t) hvalid
    refine ⟨?_, ?_, ?_⟩
    · show toAbsSeconds (addDaysNat (addOneDay t) n) = _
      rw [ihs]
      unfold toAbsSeconds
      rw [hday, hhour, hmin, hsec]
      push_cast
      ring
    · exact ihv
    · show (addDaysNat (addOneDay t) n).second = _
      rw [ihsec, hsec]

/-- `addDays` with a non-negative count is `addDaysNat`. -/
theorem addDays_nonneg (t : DateTimeUtc) (n : Int) (h : 0 ≤ n) :
    addDays t n = addDaysNat t n.toNat := by
  unfold addDays
  rw [if_pos h]

/-- Adding one hour advances the position by 3600 seconds, keeps the date
valid and leaves minute and second untouched. -/
theorem addOneHour_spec (t : DateTimeUtc) (h : ValidDate t) :
    toAbsSeconds (addOneHour t) = toAbsSeconds t + 3600 ∧
      ValidDate (addOneHour t) ∧ (addOneHour t).minute = t.minute ∧
      (addOneHour t).second = t.second := by
  obtain ⟨hm1, hm2, hd1, hd2, hh, hmin, hs⟩ := h
  unfold addOneHour
  by_cases hlt : t.hour < 23
  · rw [if_pos hlt]
    refine ⟨?_, ⟨hm1, hm2, hd1, hd2, by simp; omega, hmin, hs⟩, rfl, rfl⟩
    simp [toAbsSeconds, toAbsDay]
    ring
  · rw [if_neg hlt]
    have h23 : t.hour = 23 := by omega
    have hvalid0 : ValidDate { t with hour := 0 } := ⟨hm1, hm2, hd1, hd2, by simp, hmin, hs⟩
    obtain ⟨hday, hvalid, hhour, hmin', hsec⟩ := addOneDay_spec { t with hour := 0 } hvalid0
    refine ⟨?_, hvalid, by rw [hmin'], by rw [hsec]⟩
    unfold toAbsSeconds
    rw [hday, hhour, hmin', hsec]
    have habs : toAbsDay { t with hour := 0 } = toAbsDay t := rfl
    simp [h23, habs]
    ring

/-- Adding one minute advances the position by 60 seconds, keeps the date
valid and leaves the second untouched. -/
theorem addOneMinute_spec (t : DateTimeUtc) (h : ValidDate t) :
    toAbsSeconds (addOneMinute t) = toAbsSeconds t + 60 ∧
      ValidDate (addOneMinute t) ∧ (addOneMinute t).second = t.second := by
  obtain ⟨hm1, hm2, hd1, hd2, hh, hmin, hs⟩ := h
  unfold addOneMinute
  by_cases hlt : t.minute < 59
  · rw [if_pos hlt]
    refine ⟨?_, ⟨hm1, hm2, hd1, hd2, hh, by simp; omega, hs⟩, rfl⟩
    simp [toAbsSeconds, toAbsDay]
    ring
  · rw [if_neg hlt]
    have h59 : t.minute = 59 := by omega
    have hvalid0 : ValidDate { t with minute := 0 } := ⟨hm1, hm2, hd1, hd2, hh, by simp, hs⟩
    obtain ⟨hsecs, hvalid, hmin', hsec⟩ := addOneHour_spec { t with minute := 0 } hvalid0
    refine ⟨?_, hvalid, by rw [hsec]⟩
    rw [hsecs]
    unfold toAbsSeconds
    have habs : toAbsDay { t with minute := 0 } = toAbsDay t := rfl
    simp [h59, habs]
    ring

/-- For real months, `last_day_of_month` computes the month's length. -/
theorem last_day_of_month_eq (y : Int) (m : Nat) (h1 : 1 ≤ m) (h2 : m ≤ 12) :
    Interval.last_day_of_month y m = monthLength y m := by
  unfold Interval.last_day_of_month
  by_cases h12 : m + 1 ≤ 12
  · rw [if_pos ⟨by omega, h12⟩]
    unfold subOneDay
    rw [if_neg (by simp), if_pos (by simp; omega)]
    simp
  · have : m = 12 := by omega
    subst this
    rw [if_neg (by omega)]
    unfold subOneDay
    rw [if_neg (by simp), if_neg (by simp)]
    simp [monthLength]
    cases isLeap y <;> rfl

/-- The head of a non-empty list with a default is a member. -/
theorem headD_mem {l : List Nat} (h : l ≠ []) (d : Nat) : l.headD d ∈ l := by
  cases l with
  | nil => exact absurd rfl h
  | cons a l => simp

/-- Exact value of `days_to_safe_date` for a real target month (no year
carry): the absolute-day distance from `date` to the requested day of that
month, clamped to the month's length. -/
theorem days_to_safe_date_eq (date : DateTimeUtc) (year : Int) (month day : Nat)
    (hm1 : 1 ≤ month) (hm2 : month ≤ 12) :
    Interval.days_to_safe_date date year month day =
      (daysBeforeYear year + daysBeforeMonthB (isLeap year) month +
        (if 1 ≤ day ∧ day ≤ monthLength year month then (day : Int)
         else (monthLength year month : Int)) - 1) - toAbsDay date := by
  simp only [Interval.days_to_safe_date]
  rw [if_neg (by omega : ¬ month > 12)]
  rw [last_day_of_month_eq year month hm1 hm2]
  by_cases hday : 1 ≤ day ∧ day ≤ monthLength year month
  · rw [if_pos hday, if_pos hday]
    have key : toAbsSeconds { date with year := year, month := month, day := day } -
        toAbsSeconds date =
        86400 * ((daysBeforeYear year + daysBeforeMonthB (isLeap year) month +
          (day : Int) - 1) - toAbsDay date) := by
      unfold toAbsSeconds toAbsDay daysBeforeMonth
      simp
      ring
    rw [key, Int.mul_tdiv_cancel_left _ (by norm_num)]
  · rw [if_neg hday, if_neg hday]
    have key : toAbsSeconds
        { date with year := year, month := month, day := monthLength year month } -
        toAbsSeconds date =
        86400 * ((daysBeforeYear year + daysBeforeMonthB (isLeap year) month +
          (monthLength year month : Int) - 1) - toAbsDay date) := by
      unfold toAbsSeconds toAbsDay daysBeforeMonth
      simp
      ring
    rw [key, Int.mul_tdiv_cancel_left _ (by norm_num)]

/-- Exact value of `days_to_safe_date` for target month 13 (the year-carry
case produced by the day pass in December). -/
theorem days_to_safe_date_eq13 (date : DateTimeUtc) (year : Int) (day : Nat) :
    Interval.days_to_safe_date date year 13 day =
      (daysBeforeYear (year + 1) +
        (if 1 ≤ day ∧ day ≤ 31 then (day : Int) else 31) - 1) - toAbsDay date := by
  simp only [Interval.days_to_safe_date]
  rw [if_pos (by omega : 13 > 12)]
  have hml : monthLength (year + 1) (13 - 12) = 31 := rfl
  rw [show (13 : Nat) - 12 = 1 from rfl]
  rw [last_day_of_month_eq (year + 1) 1 (by omega) (by omega)]
  have hml1 : monthLength (year + 1) 1 = 31 := rfl
  rw [hml1]
  by_cases hday : 1 ≤ day ∧ day ≤ 31
  · rw [if_pos hday, if_pos hday]
    have key : toAbsSeconds { date with year := year + 1, month := 1, day := day } -
        toAbsSeconds date =
        86400 * ((daysBeforeYear (year + 1) + (day : Int) - 1) - toAbsDay date) := by
      unfold toAbsSeconds toAbsDay daysBeforeMonth
      have h1 : daysBeforeMonthB (isLeap (year + 1)) 1 = 0 := rfl
      simp [h1]
      ring
    rw [key, Int.mul_tdiv_cancel_left _ (by norm_num)]
  · rw [if_neg hday, if_neg hday]
    have key : toAbsSeconds { date with year := year + 1, month := 1, day := 31 } -
        toAbsSeconds date =
        86400 * ((daysBeforeYear (year + 1) + (31 : Int) - 1) - toAbsDay date) := by
      unfold toAbsSeconds toAbsDay daysBeforeMonth
      have h1 : daysBeforeMonthB (isLeap (year + 1)) 1 = 0 := rfl
      simp [h1]
      ring
    rw [key, Int.mul_tdiv_cancel_left _ (by norm_num)]

/-- A validated interval has all field values in range. -/
theorem validate_interval_bounds (iv : Interval)
    (h : Interval.validate_interval iv = .ok ()) :
    (∀ m ∈ iv.minutes, m ≤ 59) ∧ (∀ h ∈ iv.hours, h ≤ 23) ∧
    (∀ d ∈ iv.days, 1 ≤ d ∧ d ≤ 31) ∧ (∀ m ∈ iv.months, 1 ≤ m ∧ m ≤ 12) ∧
    (∀ w ∈ iv.weekdays, 1 ≤ w ∧ w ≤ 7) := by
  simp only [Interval.validate_interval] at h
  split at h
  · exact absurd h (by simp)
  · next hcond =>
    simp only [Bool.or_eq_true, not_or, Option.not_isSome_iff_eq_none,
      List.find?_eq_none] at hcond
    obtain ⟨⟨⟨⟨h1, h2⟩, h3⟩, h4⟩, h5⟩ := hcond
    refine ⟨fun m hm => ?_, fun x hx => ?_, fun d hd => ?_, fun m hm => ?_,
      fun w hw => ?_⟩
    · have := h1 m hm; simp at this; omega
    · have := h2 x hx; simp at this; omega
    · have := h3 d hd; simp at this; omega
    · have := h4 m hm; simp at this; omega
    · have := h5 w hw; simp at this; omega

/-- The minute pass never moves the candidate backwards, keeps it valid,
keeps minutes in range and preserves the second. -/
theorem next_minute_spec (iv : Interval) (t : DateTimeUtc)
    (hm : ∀ m ∈ iv.minutes, m ≤ 59) (ht : ValidDate t) :
    toAbsSeconds t ≤ toAbsSeconds (iv.next_minute_or_carry_hour t) ∧
      ValidDate (iv.next_minute_or_carry_hour t) ∧
      (iv.next_minute_or_carry_hour t).second = t.second := by
  obtain ⟨hm1, hm2, hd1, hd2, hh, hmin, hs⟩ := ht
  unfold Interval.next_minute_or_carry_hour
  by_cases hemp : iv.minutes.isEmpty
  · rw [if_pos hemp]
    exact ⟨le_refl _, ⟨hm1, hm2, hd1, hd2, hh, hmin, hs⟩, rfl⟩
  · rw [if_neg hemp]
    have hne : iv.minutes ≠ [] := by simpa [List.isEmpty_iff] using hemp
    cases hfind : iv.minutes.find? (fun minute => t.minute ≤ minute) with
    | some minute =>
      simp only [hfind]
      have hcur : t.minute ≤ minute := by
        have := List.find?_some hfind
        simpa using this
      have hle : minute ≤ 59 := hm minute (List.mem_of_find?_eq_some hfind)
      refine ⟨?_, ⟨hm1, hm2, hd1, hd2, hh, by simpa using hle, hs⟩, trivial⟩
      unfold toAbsSeconds
      have habs : toAbsDay { t with minute := minute } = toAbsDay t := rfl
      simp [habs]
      omega
    | none =>
      simp only [hfind]
      have hfirst : iv.minutes.headD 0 ∈ iv.minutes := headD_mem hne 0
      have hfle : iv.minutes.headD 0 ≤ 59 := hm _ hfirst
      generalize hgen : iv.minutes.headD 0 = f0 at hfle ⊢
      have hvalid0 : ValidDate { t with minute := f0 } :=
        ⟨hm1, hm2, hd1, hd2, hh, by simpa using hfle, hs⟩
      obtain ⟨hsecs, hvalid, hmin', hsec⟩ :=
        addOneHour_spec { t with minute := f0 } hvalid0
      refine ⟨?_, hvalid, by rw [hsec]⟩
      rw [hsecs]
      unfold toAbsSeconds
      have habs : toAbsDay { t with minute := f0 } = toAbsDay t := rfl
      simp [habs]
      omega

/-- The hour pass never moves the candidate backwards, keeps it valid and
preserves the second. -/
theorem next_hour_spec (iv : Interval) (t : DateTimeUtc)
    (hm : ∀ h ∈ iv.hours, h ≤ 23) (ht : ValidDate t) :
    toAbsSeconds t ≤ toAbsSeconds (iv.next_hour_or_carry_day t) ∧
      ValidDate (iv.next_hour_or_carry_day t) ∧
      (iv.next_hour_or_carry_day t).second = t.second := by
  obtain ⟨hm1, hm2, hd1, hd2, hh, hmin, hs⟩ := ht
  unfold Interval.next_hour_or_carry_day
  by_cases hemp : iv.hours.isEmpty
  · rw [if_pos hemp]
    exact ⟨le_refl _, ⟨hm1, hm2, hd1, hd2, hh, hmin, hs⟩, rfl⟩
  · rw [if_neg hemp]
    have hne : iv.hours ≠ [] := by simpa [List.isEmpty_iff] using hemp
    cases hfind : iv.hours.find? (fun hour => t.hour ≤ hour) with
    | some hour =>
      simp only [hfind]
      have hcur : t.hour ≤ hour := by
        have := List.find?_some hfind
        simpa using this
      have hle : hour ≤ 23 := hm hour (List.mem_of_find?_eq_some hfind)
      refine ⟨?_, ⟨hm1, hm2, hd1, hd2, by simpa using hle, hmin, hs⟩, trivial⟩
      unfold toAbsSeconds
      have habs : toAbsDay { t with hour := hour } = toAbsDay t := rfl
      simp [habs]
      omega
    | none =>
      simp only [hfind]
      have hfirst : iv.hours.headD 0 ∈ iv.hours := headD_mem hne 0
      have hfle : iv.hours.headD 0 ≤ 23 := hm _ hfirst
      generalize hgen : iv.hours.headD 0 = f0 at hfle ⊢
      have hvalid0 : ValidDate { t with hour := f0 } :=
        ⟨hm1, hm2, hd1, hd2, by simpa using hfle, hmin, hs⟩
      obtain ⟨hday, hvalid, hhour, hmin', hsec⟩ :=
        addOneDay_spec { t with hour := f0 } hvalid0
      refine ⟨?_, hvalid, by rw [hsec]⟩
      unfold toAbsSeconds
      rw [hday, hhour, hmin', hsec]
      have habs : toAbsDay { t with hour := f0 } = toAbsDay t := rfl
      simp [habs]
      omega

/-- Adding a non-negative signed day count never moves the candidate
backwards, keeps it valid and preserves the second. -/
theorem addDays_step (t : DateTimeUtc) (n : Int) (ht : ValidDate t) (hn : 0 ≤ n) :
    toAbsSeconds t ≤ toAbsSeconds (addDays t n) ∧ ValidDate (addDays t n) ∧
      (addDays t n).second = t.second := by
  rw [addDays_nonneg t n hn]
  obtain ⟨hs, hv, hsec⟩ := addDaysNat_spec n.toNat t ht
  refine ⟨?_, hv, hsec⟩
  rw [hs]
  have : (0 : Int) ≤ 86400 * n.toNat := by positivity
  omega

/-- The weekday pass never moves the candidate backwards, keeps it valid and
preserves the second. -/
theorem next_weekday_spec (iv : Interval) (t : DateTimeUtc) (ht : ValidDate t) :
    toAbsSeconds t ≤ toAbsSeconds (iv.next_weekday_or_carry_month t) ∧
      ValidDate (iv.next_weekday_or_carry_month t) ∧
      (iv.next_weekday_or_carry_month t).second = t.second := by
  unfold Interval.next_weekday_or_carry_month
  by_cases hguard : iv.weekdays.isEmpty || !iv.days.isEmpty
  · rw [if_pos hguard]
    exact ⟨le_refl _, ht, rfl⟩
  · rw [if_neg hguard]
    have key : ∀ w : Nat, 0 ≤ Interval.days_to_weekday (weekdayNumber t) w := by
      intro w
      unfold Interval.days_to_weekday
      positivity
    cases hfind : iv.weekdays.find? (fun weekday => weekdayNumber t ≤ weekday) with
    | some weekday =>
      simp only [hfind]
      exact addDays_step t _ ht (key weekday)
    | none =>
      simp only [hfind]
      exact addDays_step t _ ht (key _)

/-- The day-of-month pass never moves the candidate backwards, keeps it
valid and preserves the second. -/
theorem next_day_spec (iv : Interval) (t : DateTimeUtc)
    (hdb : ∀ d ∈ iv.days, 1 ≤ d ∧ d ≤ 31) (ht : ValidDate t) :
    toAbsSeconds t ≤ toAbsSeconds (iv.next_day_or_carry_month t) ∧
      ValidDate (iv.next_day_or_carry_month t) ∧
      (iv.next_day_or_carry_month t).second = t.second := by
  obtain ⟨hm1, hm2, hd1, hd2, hh, hmin, hs⟩ := ht
  have ht : ValidDate t := ⟨hm1, hm2, hd1, hd2, hh, hmin, hs⟩
  have habs : toAbsDay t =
      daysBeforeYear t.year + daysBeforeMonthB (isLeap t.year) t.month + t.day - 1 :=
    rfl
  unfold monthLength at hd2
  unfold Interval.next_day_or_carry_month
  by_cases hguard : iv.days.isEmpty || !iv.weekdays.isEmpty
  · rw [if_pos hguard]
    exact ⟨le_refl _, ht, rfl⟩
  · rw [if_neg hguard]
    have hne : iv.days ≠ [] := by
      simp only [Bool.or_eq_true, not_or, Bool.not_eq_true] at hguard
      simpa [List.isEmpty_iff] using hguard.1
    cases hfind : iv.days.find? (fun day => t.day ≤ day) with
    | some day =>
      simp only [hfind]
      have hcur : t.day ≤ day := by
        have := List.find?_some hfind
        simpa using this
      refine addDays_step t _ ht ?_
      rw [days_to_safe_date_eq t t.year t.month day hm1 hm2]
      by_cases hclamp : 1 ≤ day ∧ day ≤ monthLength t.year t.month
      · rw [if_pos hclamp]
        omega
      · rw [if_neg hclamp]
        unfold monthLength
        omega
    | none =>
      simp only [hfind]
      have hfb := hdb _ (headD_mem hne 0)
      refine addDays_step t _ ht ?_
      by_cases hm11 : t.month + 1 ≤ 12
      · rw [days_to_safe_date_eq t t.year (t.month + 1) _ (by omega) hm11]
        have hstep := daysBeforeMonthB_succ (isLeap t.year) t.month (by omega) hm1
        have hml1 := (monthLengthB_bounds (isLeap t.year) (t.month + 1)).1
        by_cases hclamp : 1 ≤ iv.days.headD 0 ∧
            iv.days.headD 0 ≤ monthLength t.year (t.month + 1)
        · rw [if_pos hclamp]
          omega
        · rw [if_neg hclamp]
          unfold monthLength
          omega
      · have h13 : t.month + 1 = 13 := by omega
        rw [h13, days_to_safe_date_eq13]
        have h12 := daysBeforeMonthB_twelve (isLeap t.year)
        have hysucc := daysBeforeYear_succ t.year
        have hm12' : t.month = 12 := by omega
        rw [hm12'] at habs hd2
        have hml12 : monthLengthB (isLeap t.year) 12 = 31 := by
          cases isLeap t.year <;> rfl
        rw [if_pos ⟨hfb.1, hfb.2⟩]
        cases hIL : isLeap t.year <;> rw [hIL] at h12 hysucc <;>
          simp at h12 hysucc <;> rw [hIL] at habs hd2 hml12 <;> omega

/-- The month pass never moves the candidate backwards, keeps it valid and
preserves the second. -/
theorem next_month_spec (iv : Interval) (t : DateTimeUtc)
    (hmb : ∀ m ∈ iv.months, 1 ≤ m ∧ m ≤ 12) (ht : ValidDate t) :
    toAbsSeconds t ≤ toAbsSeconds (iv.next_month_or_carry_year t) ∧
      ValidDate (iv.next_month_or_carry_year t) ∧
      (iv.next_month_or_carry_year t).second = t.second := by
  obtain ⟨hm1, hm2, hd1, hd2, hh, hmin, hs⟩ := ht
  have ht : ValidDate t := ⟨hm1, hm2, hd1, hd2, hh, hmin, hs⟩
  have habs : toAbsDay t =
      daysBeforeYear t.year + daysBeforeMonthB (isLeap t.year) t.month + t.day - 1 :=
    rfl
  unfold monthLength at hd2
  unfold Interval.next_month_or_carry_year
  by_cases hemp : iv.months.isEmpty
  · rw [if_pos hemp]
    exact ⟨le_refl _, ht, rfl⟩
  · rw [if_neg hemp]
    have hne : iv.months ≠ [] := by simpa [List.isEmpty_iff] using hemp
    cases hfind : iv.months.find? (fun month => t.month ≤ month) with
    | some month =>
      simp only [hfind]
      have hcur : t.month ≤ month := by
        have := List.find?_some hfind
        simpa using this
      have hmbnd := hmb month (List.mem_of_find?_eq_some hfind)
      refine addDays_step t _ ht ?_
      rw [days_to_safe_date_eq t t.year month t.day hmbnd.1 hmbnd.2]
      by_cases heq : month = t.month
      · subst heq
        rw [if_pos ⟨hd1, by unfold monthLength; omega⟩]
        omega
      · have hgt : t.month + 1 ≤ month := by omega
        have hstep := daysBeforeMonthB_succ (isLeap t.year) t.month (by omega) hm1
        have hmono := daysBeforeMonthB_mono (isLeap t.year) (t.month + 1)
          (by omega) month (by omega) hgt
        have hml1 := (monthLengthB_bounds (isLeap t.year) month).1
        by_cases hclamp : 1 ≤ t.day ∧ t.day ≤ monthLength t.year month
        · rw [if_pos hclamp]
          omega
        · rw [if_neg hclamp]
          unfold monthLength
          omega
    | none =>
      simp only [hfind]
      have hfb := hmb _ (headD_mem hne 0)
      refine addDays_step t _ ht ?_
      rw [days_to_safe_date_eq t (t.year + 1) _ _ hfb.1 hfb.2]
      have hysucc := daysBeforeYear_succ t.year
      have hmlub := (monthLengthB_bounds (isLeap t.year) t.month).2
      have hinyear := daysBeforeMonthB_day_le (isLeap t.year) t.month (by omega)
        t.day (by omega) hm1 hd2
      have hml1 := (monthLengthB_bounds (isLeap (t.year + 1)) (iv.months.headD 0)).1
      by_cases hclamp : 1 ≤ t.day ∧
          t.day ≤ monthLength (t.year + 1) (iv.months.headD 0)
      · rw [if_pos hclamp]
        cases hIL : isLeap t.year <;> rw [hIL] at habs hysucc hinyear hd2 hmlub <;>
          simp at hysucc hinyear <;> omega
      · rw [if_neg hclamp]
        unfold monthLength
        cases hIL : isLeap t.year <;> rw [hIL] at habs hysucc hinyear hd2 hmlub <;>
          simp at hysucc hinyear <;> omega

/-- `next_time` on a validated interval lands at least one minute after the
minute-truncated input, stays valid and has a zero second. -/
theorem next_time_spec (iv : Interval) (t : DateTimeUtc)
    (hiv : Interval.validate_interval iv = .ok ()) (ht : ValidDate t) :
    toAbsSeconds (truncToMinute t) + 60 ≤ toAbsSeconds (iv.next_time t) ∧
      ValidDate (iv.next_time t) ∧ (iv.next_time t).second = 0 := by
  obtain ⟨hm, hh, hd, hmo, hw⟩ := validate_interval_bounds iv hiv
  have ht0 : ValidDate { t with second := 0 } := by
    obtain ⟨a, b, c, d, e, f, g⟩ := ht
    exact ⟨a, b, c, d, e, f, by simp⟩
  obtain ⟨h1s, h1v, h1sec⟩ := addOneMinute_spec { t with second := 0 } ht0
  obtain ⟨h2s, h2v, h2sec⟩ := next_minute_spec iv _ hm h1v
  obtain ⟨h3s, h3v, h3sec⟩ := next_hour_spec iv _ hh h2v
  obtain ⟨h4s, h4v, h4sec⟩ := next_weekday_spec iv _ h3v
  obtain ⟨h5s, h5v, h5sec⟩ := next_day_spec iv _ hd h4v
  obtain ⟨h6s, h6v, h6sec⟩ := next_month_spec iv _ hmo h5v
  refine ⟨?_, h6v, ?_⟩
  · show toAbsSeconds (truncToMinute t) + 60 ≤
      toAbsSeconds (iv.next_month_or_carry_year (iv.next_day_or_carry_month
        (iv.next_weekday_or_carry_month (iv.next_hour_or_carry_day
          (iv.next_minute_or_carry_hour (addOneMinute { t with second := 0 }))))))
    have hchain := le_trans h2s (le_trans h3s (le_trans h4s (le_trans h5s h6s)))
    have htr : toAbsSeconds (truncToMinute t) = toAbsSeconds { t with second := 0 } := rfl
    omega
  · show (iv.next_month_or_carry_year (iv.next_day_or_carry_month
      (iv.next_weekday_or_carry_month (iv.next_hour_or_carry_day
        (iv.next_minute_or_carry_hour (addOneMinute { t with second := 0 })))))).second = 0
    rw [h6sec, h5sec, h4sec, h3sec, h2sec, h1sec]

/-- C3: for a validated interval, `next_time` lands strictly after the input
truncated to the minute, and repeated application from its own result is a
strictly increasing sequence of instants. -/
theorem c3_next_time_strictly_increasing (iv : Interval) (t : DateTimeUtc)
    (hiv : Interval.validate_interval iv = .ok ()) (ht : ValidDate t) :
    toAbsSeconds (truncToMinute t) < toAbsSeconds (iv.next_time t) ∧
    ∀ k : Nat, toAbsSeconds (next_time_seq iv t k) <
      toAbsSeconds (next_time_seq iv t (k + 1)) := by
  obtain ⟨hbase, hval, hsec⟩ := next_time_spec iv t hiv ht
  have step : ∀ u : DateTimeUtc, ValidDate u → u.second = 0 →
      toAbsSeconds u < toAbsSeconds (iv.next_time u) ∧
      ValidDate (iv.next_time u) ∧ (iv.next_time u).second = 0 := by
    intro u hvu hsu
    obtain ⟨hs', hv', hsec'⟩ := next_time_spec iv u hiv hvu
    have htr : toAbsSeconds (truncToMinute u) = toAbsSeconds u := by
      unfold truncToMinute toAbsSeconds
      have habs : toAbsDay { u with second := 0 } = toAbsDay u := rfl
      simp [habs, hsu]
    refine ⟨by omega, hv', hsec'⟩
  refine ⟨by omega, ?_⟩
  have main : ∀ k : Nat, ValidDate (next_time_seq iv t k) ∧
      (next_time_seq iv t k).second = 0 ∧
      toAbsSeconds (next_time_seq iv t k) < toAbsSeconds (next_time_seq iv t (k + 1)) := by
    intro k
    induction k with
    | zero =>
      obtain ⟨hlt, hv', hs'⟩ := step (iv.next_time t) hval hsec
      exact ⟨hval, hsec, hlt⟩
    | succ k ihk =>
      obtain ⟨hvk, hsk, _⟩ := ihk
      obtain ⟨hlt1, hv1, hs1⟩ := step (next_time_seq iv t k) hvk hsk
      obtain ⟨hlt2, hv2, hs2⟩ := step (next_time_seq iv t (k + 1)) hv1 hs1
      exact ⟨hv1, hs1, hlt2⟩
  exact fun k => (main k).2.2

/-- C3 witness: the interval of `"0 0 31 * *"` strictly advances the instant
2019-01-30 00:00:00 and its own first result. -/
theorem c3_witness :
    toAbsSeconds (truncToMinute ⟨2019, 1, 30, 0, 0, 0⟩) <
      toAbsSeconds ((⟨"0 0 31 * *", [0], [0], [31], [], []⟩ : Interval).next_time
        ⟨2019, 1, 30, 0, 0, 0⟩) ∧
    toAbsSeconds (next_time_seq ⟨"0 0 31 * *", [0], [0], [31], [], []⟩
        ⟨2019, 1, 30, 0, 0, 0⟩ 0) <
      toAbsSeconds (next_time_seq ⟨"0 0 31 * *", [0], [0], [31], [], []⟩
        ⟨2019, 1, 30, 0, 0, 0⟩ 1) := by
  have h := c3_next_time_strictly_increasing
    ⟨"0 0 31 * *", [0], [0], [31], [], []⟩ ⟨2019, 1, 30, 0, 0, 0⟩
    (by decide) (by decide)
  exact ⟨h.1, h.2 0⟩

end RustyScheduler
